import Mathlib

/-!
# Verification of the ModelRigger skeletal-animation core

This file is a shallow embedding, in Lean 4, of the algorithmic core of the
ModelRigger repository (auto-rigging and animation retargeting), together with
theorems settling the specification claims about it.

Embedding conventions:

* JavaScript `number` arithmetic is modelled with exact rationals (`ℚ`) wherever
  the code only adds, subtracts, multiplies, divides and compares; the
  transcendental library calls (`Math.exp`, `Math.sqrt`, quaternion `slerp`)
  are taken as explicit function parameters, so every pipeline stays executable
  and the theorems quantify over them.  The IK solver (`solveTwoBoneIK`), whose
  correctness claim is genuinely geometric, is embedded over `ℝ`.
* `THREE.Quaternion.invert` is the conjugate (THREE documents that the
  quaternion is assumed to be unit); the embedding keeps that distinction,
  writing `conj` where the code calls `invert`.
* NaN/undefined propagation paths of the float code are unrepresentable in
  `ℚ`; out-of-range array reads default to `0`.  Each place where this matters
  is noted next to the definition concerned.

Sources embedded: `src/utils/math.ts` (bone-name matcher),
`src/utils/autoRig.ts` (marker resolver, envelope builder, skin-weight solver,
weight preview), and the retarget worker (frame loop, global scale, two-bone
CCD IK solver).
-/

set_option maxHeartbeats 1600000

namespace ModelRigger

/-! ## Rational 3-vectors (embedding of `THREE.Vector3` on the exact paths) -/

/-- A 3-component vector with exact rational entries. -/
structure Vec3 where
  x : ℚ
  y : ℚ
  z : ℚ
deriving DecidableEq, Repr

namespace Vec3

def add (a b : Vec3) : Vec3 := ⟨a.x + b.x, a.y + b.y, a.z + b.z⟩

def sub (a b : Vec3) : Vec3 := ⟨a.x - b.x, a.y - b.y, a.z - b.z⟩

def smul (s : ℚ) (a : Vec3) : Vec3 := ⟨s * a.x, s * a.y, s * a.z⟩

def dot (a b : Vec3) : ℚ := a.x * b.x + a.y * b.y + a.z * b.z

/-- `lengthSq` of THREE.Vector3. -/
def normSq (a : Vec3) : ℚ := a.x * a.x + a.y * a.y + a.z * a.z

/-- `THREE.Vector3.lerpVectors(a, b, t)`: componentwise `a + (b - a) * t`. -/
def lerpVectors (a b : Vec3) (t : ℚ) : Vec3 :=
  ⟨a.x + (b.x - a.x) * t, a.y + (b.y - a.y) * t, a.z + (b.z - a.z) * t⟩

def zero : Vec3 := ⟨0, 0, 0⟩

end Vec3

/-! ## Global scale (retarget worker)

Embedding of the `globalScale` computation of the retarget worker:

```
if (srcH > 0.001 && tgtH > 0.001) { globalScale = tgtH / srcH; }
if (!Number.isFinite(globalScale) || globalScale < 0.0001 || globalScale > 10000) {
    globalScale = 1.0;
}
```

Non-finite floats are unrepresentable in `ℚ`; the only source of a non-finite
ratio in the code is a degenerate denominator, which the `srcH > 0.001` guard
already excludes, so the `isFinite` disjunct has no rational inhabitant. -/

def computeGlobalScale (srcH tgtH : ℚ) : ℚ :=
  let gs : ℚ := if 1 / 1000 < srcH ∧ 1 / 1000 < tgtH then tgtH / srcH else 1
  if gs < 1 / 10000 ∨ 10000 < gs then 1 else gs

/-! ## Marker resolver (`resolveMarkerPositions` in `src/utils/autoRig.ts`) -/

/-- The raw rigging marker set.  The sixteen required markers are total
fields; the `head` (head-top) marker is optional, exactly as in the source
where `markers['head']` may be absent ("in case old presets don't have
head"). -/
structure Markers where
  chin : Vec3
  pelvis : Vec3
  spine_mid : Vec3
  chest : Vec3
  l_shoulder : Vec3
  r_shoulder : Vec3
  l_wrist : Vec3
  r_wrist : Vec3
  l_elbow : Vec3
  r_elbow : Vec3
  l_knee : Vec3
  r_knee : Vec3
  l_ankle : Vec3
  r_ankle : Vec3
  l_toe : Vec3
  r_toe : Vec3
  head : Option Vec3
deriving DecidableEq, Repr

/-- Output of the marker resolver: required markers copied through plus the
derived joints. -/
structure ResolvedMarkerPositions where
  chin : Vec3
  pelvis : Vec3
  spine_mid : Vec3
  chest : Vec3
  l_shoulder : Vec3
  r_shoulder : Vec3
  l_wrist : Vec3
  r_wrist : Vec3
  l_elbow : Vec3
  r_elbow : Vec3
  l_knee : Vec3
  r_knee : Vec3
  l_ankle : Vec3
  r_ankle : Vec3
  l_toe : Vec3
  r_toe : Vec3
  head : Vec3
  neckPos : Vec3
  spine2Pos : Vec3
  l_hip_joint : Vec3
  r_hip_joint : Vec3
  l_armStart : Vec3
  r_armStart : Vec3
  bodyHeight : ℚ
  baseRadius : ℚ
deriving DecidableEq, Repr

/-- Embedding of `resolveMarkerPositions`.  Line-by-line with the source:
missing `head` marker is estimated as `chin + (0, 0.2, 0)`;
`neckPos = lerpVectors(chest, chin, 0.5)`;
`spine2Pos = lerpVectors(chest, neckPos, 0.3)`;
hip sockets copy the pelvis and overwrite `.x` with `knee.x * 0.8`;
`bodyHeight = head.y > 0.1 ? head.y : (chin.y || 1.7)`;
`baseRadius = bodyHeight * 0.08`. -/
def resolveMarkerPositions (m : Markers) : ResolvedMarkerPositions :=
  let head : Vec3 :=
    match m.head with
    | some h => h
    | none => m.chin.add ⟨0, 1 / 5, 0⟩
  let neckPos := Vec3.lerpVectors m.chest m.chin (1 / 2)
  let spine2Pos := Vec3.lerpVectors m.chest neckPos (3 / 10)
  let l_hip_joint : Vec3 := ⟨m.l_knee.x * (4 / 5), m.pelvis.y, m.pelvis.z⟩
  let r_hip_joint : Vec3 := ⟨m.r_knee.x * (4 / 5), m.pelvis.y, m.pelvis.z⟩
  let l_armStart := Vec3.lerpVectors m.l_shoulder m.l_elbow (3 / 10)
  let r_armStart := Vec3.lerpVectors m.r_shoulder m.r_elbow (3 / 10)
  let bodyHeight : ℚ :=
    if 1 / 10 < head.y then head.y else (if m.chin.y = 0 then 17 / 10 else m.chin.y)
  let baseRadius := bodyHeight * (8 / 100)
  { chin := m.chin, pelvis := m.pelvis, spine_mid := m.spine_mid, chest := m.chest,
    l_shoulder := m.l_shoulder, r_shoulder := m.r_shoulder,
    l_wrist := m.l_wrist, r_wrist := m.r_wrist,
    l_elbow := m.l_elbow, r_elbow := m.r_elbow,
    l_knee := m.l_knee, r_knee := m.r_knee,
    l_ankle := m.l_ankle, r_ankle := m.r_ankle,
    l_toe := m.l_toe, r_toe := m.r_toe,
    head := head, neckPos := neckPos, spine2Pos := spine2Pos,
    l_hip_joint := l_hip_joint, r_hip_joint := r_hip_joint,
    l_armStart := l_armStart, r_armStart := r_armStart,
    bodyHeight := bodyHeight, baseRadius := baseRadius }

/-! ## Claim theorems: C5 and C9 -/

/-- C5: `globalScale` is the ratio of target to source skeleton height, and
whenever that ratio falls outside the plausible range `[0.0001, 10000]` (the
non-finite case being unrepresentable over `ℚ`, see `computeGlobalScale`), the
scale actually used is exactly `1.0`. -/
theorem globalScale_ratio_clamped (srcH tgtH : ℚ)
    (h1 : 1 / 1000 < srcH) (h2 : 1 / 1000 < tgtH) :
    (¬(tgtH / srcH < 1 / 10000 ∨ 10000 < tgtH / srcH) →
      computeGlobalScale srcH tgtH = tgtH / srcH) ∧
    ((tgtH / srcH < 1 / 10000 ∨ 10000 < tgtH / srcH) →
      computeGlobalScale srcH tgtH = 1) := by
  unfold computeGlobalScale
  simp only [if_pos (And.intro h1 h2)]
  refine ⟨fun h => if_neg h, fun h => if_pos h⟩

theorem globalScale_ratio_clamped_w :
    computeGlobalScale 1 2 = 2 ∧ computeGlobalScale 1 20001 = 1 := by
  have hin := (globalScale_ratio_clamped 1 2 (by norm_num) (by norm_num)).1 (by norm_num)
  have hout := (globalScale_ratio_clamped 1 20001 (by norm_num) (by norm_num)).2 (by norm_num)
  norm_num at hin
  exact ⟨hin, hout⟩

/-- C9: for a complete marker set whose optional head-top marker is absent, the
marker resolver derives the neck as the chest–chin midpoint, the upper spine as
the interpolation of chest toward neck at parameter 0.3, the head top as
`chin + (0, 0.2, 0)`, and each hip socket as the pelvis with its sideways (x)
coordinate replaced by `0.8` times the corresponding knee's x coordinate. -/
theorem markerResolver_derived_joints (m : Markers) (h : m.head = none) :
    (resolveMarkerPositions m).neckPos = Vec3.lerpVectors m.chest m.chin (1 / 2) ∧
    (resolveMarkerPositions m).spine2Pos =
      Vec3.lerpVectors m.chest (Vec3.lerpVectors m.chest m.chin (1 / 2)) (3 / 10) ∧
    (resolveMarkerPositions m).head = m.chin.add ⟨0, 1 / 5, 0⟩ ∧
    (resolveMarkerPositions m).l_hip_joint =
      ⟨(4 / 5) * m.l_knee.x, m.pelvis.y, m.pelvis.z⟩ ∧
    (resolveMarkerPositions m).r_hip_joint =
      ⟨(4 / 5) * m.r_knee.x, m.pelvis.y, m.pelvis.z⟩ := by
  unfold resolveMarkerPositions
  refine ⟨rfl, rfl, by simp [h], ?_, ?_⟩ <;> simp [mul_comm]

/-- A concrete, fully specified humanoid marker set (head-top marker absent),
used to exercise the marker-resolver theorem on explicit input. -/
def sampleMarkers : Markers :=
  { chin := ⟨0, 17 / 10, 0⟩, pelvis := ⟨0, 9 / 10, 1 / 10⟩,
    spine_mid := ⟨0, 6 / 5, 0⟩, chest := ⟨0, 7 / 5, 0⟩,
    l_shoulder := ⟨1 / 5, 3 / 2, 0⟩, r_shoulder := ⟨-(1 / 5), 3 / 2, 0⟩,
    l_wrist := ⟨7 / 10, 3 / 2, 0⟩, r_wrist := ⟨-(7 / 10), 3 / 2, 0⟩,
    l_elbow := ⟨9 / 20, 3 / 2, 0⟩, r_elbow := ⟨-(9 / 20), 3 / 2, 0⟩,
    l_knee := ⟨1 / 10, 1 / 2, 0⟩, r_knee := ⟨-(1 / 10), 1 / 2, 0⟩,
    l_ankle := ⟨1 / 10, 1 / 10, 0⟩, r_ankle := ⟨-(1 / 10), 1 / 10, 0⟩,
    l_toe := ⟨1 / 10, 0, 1 / 10⟩, r_toe := ⟨-(1 / 10), 0, 1 / 10⟩,
    head := none }

theorem markerResolver_derived_joints_w :
    (resolveMarkerPositions sampleMarkers).head = ⟨0, 19 / 10, 0⟩ ∧
      (resolveMarkerPositions sampleMarkers).l_hip_joint = ⟨2 / 25, 9 / 10, 1 / 10⟩ := by
  obtain ⟨-, -, h3, h4, -⟩ := markerResolver_derived_joints sampleMarkers rfl
  refine ⟨?_, ?_⟩
  · rw [h3]; norm_num [sampleMarkers, Vec3.add]
  · rw [h4]; norm_num [sampleMarkers]

/-! ## Envelope builder and skin-weight solver (`src/utils/autoRig.ts`)

The geometry works over `ℚ`; the two transcendental library calls are passed
in as parameters: `sqrtQ` stands for the square root taken inside
`Vector3.length`/`distanceTo`, and `expQ` for `Math.exp`.  The theorems
quantify over them (adding only the facts that hold of the float originals,
such as non-negativity of `Math.exp`). -/

/-- Bone segment of the envelope builder: capsule axis from `start` to
`stop` with influence `radius` (`stop` is the source's `end` field). -/
structure BoneSegment where
  boneIndex : ℕ
  boneName : String
  start : Vec3
  stop : Vec3
  radius : ℚ
deriving DecidableEq, Repr

/-- Embedding of `distanceToSegment(point, segStart, segEnd)`: clamped
projection onto the segment; `sqrtQ` stands for the square root inside
`Vector3.length`/`distanceTo` (the code returns `sqrt` of the squared norms
computed here). -/
def distanceToSegment (sqrtQ : ℚ → ℚ) (point segStart segEnd : Vec3) : ℚ :=
  let ab := segEnd.sub segStart
  let ap := point.sub segStart
  let abLenSq := ab.normSq
  if abLenSq < 1 / 10000 then sqrtQ ap.normSq
  else
    let t := max 0 (min 1 (ap.dot ab / abLenSq))
    let closest := segStart.add (ab.smul t)
    sqrtQ (point.sub closest).normSq

/-- Per-segment raw weight of `calculateWeightsForVertex`:
`w = exp(-(d/radius)^2)`, times `1 / (1 + (d/radius - 1) * 2)` when
`d/radius > 1`. -/
def segmentWeight (sqrtQ expQ : ℚ → ℚ) (vertex : Vec3) (seg : BoneSegment) : ℚ :=
  let dist := distanceToSegment sqrtQ vertex seg.start seg.stop
  let normalizedDist := dist / seg.radius
  let w := expQ (-(normalizedDist * normalizedDist))
  if 1 < normalizedDist then w * (1 / (1 + (normalizedDist - 1) * 2)) else w

/-- Stable insertion into a list sorted by a descending key; an element is
placed after every element of key `≥` its own, which is exactly the (stable)
behaviour of `Array.prototype.sort` with a `(a, b) => key(b) - key(a)`
comparator. -/
def insertDescBy {α β : Type} [LinearOrder β] (key : α → β) (e : α) :
    List α → List α
  | [] => [e]
  | f :: rest => if key f < key e then e :: f :: rest else f :: insertDescBy key e rest

/-- Stable sort by a descending key (see `insertDescBy`). -/
def sortDescBy {α β : Type} [LinearOrder β] (key : α → β) : List α → List α
  | [] => []
  | e :: rest => insertDescBy key e (sortDescBy key rest)

theorem insertDescBy_perm {α β : Type} [LinearOrder β] (key : α → β) (e : α)
    (l : List α) : (insertDescBy key e l).Perm (e :: l) := by
  induction l with
  | nil => simp [insertDescBy]
  | cons f rest ih =>
    unfold insertDescBy
    split
    · exact List.Perm.refl _
    · exact ((ih.cons f).trans (List.Perm.swap e f rest))

theorem sortDescBy_perm {α β : Type} [LinearOrder β] (key : α → β) (l : List α) :
    (sortDescBy key l).Perm l := by
  induction l with
  | nil => exact List.Perm.refl _
  | cons e rest ih =>
    exact (insertDescBy_perm key e (sortDescBy key rest)).trans (ih.cons e)

/-- The skin-weight solver's sort: by descending raw weight. -/
def sortWeightDesc (l : List (ℕ × ℚ)) : List (ℕ × ℚ) := sortDescBy Prod.snd l

/-- Embedding of `calculateWeightsForVertex` (the shared per-vertex solver of
`autoRig.ts`): raw weight per segment (the scratch buffer `_tempBoneWeights`
caps the collected entries at 30), stable sort by descending weight, keep the
top 4 (padding missing slots with index 0 / weight 0), then either normalize
by the kept total or — when the total is not positive — fall back to bone 0
with full weight.  Returns (outIndices, outWeights). -/
def calculateWeightsForVertex (sqrtQ expQ : ℚ → ℚ) (vertex : Vec3)
    (segments : List BoneSegment) : List ℕ × List ℚ :=
  let entries := (segments.take 30).map
    (fun seg => (seg.boneIndex, segmentWeight sqrtQ expQ vertex seg))
  let sorted := sortWeightDesc entries
  let top := sorted.take 4
  let outIndices := (List.range 4).map (fun i => (top.getD i (0, 0)).1)
  let outWeights := (List.range 4).map (fun i => (top.getD i (0, 0)).2)
  let totalWeight := (outWeights).sum
  if 0 < totalWeight then
    (outIndices, outWeights.map (fun w => w * (1 / totalWeight)))
  else
    (0 :: outIndices.tail, [1, 0, 0, 0])

/-- Total raw influence of all bone segments on a vertex (the sum the
specification's zero-influence fallback speaks about). -/
def totalInfluence (sqrtQ expQ : ℚ → ℚ) (vertex : Vec3)
    (segments : List BoneSegment) : ℚ :=
  (segments.map (fun seg => segmentWeight sqrtQ expQ vertex seg)).sum

/-- Embedding of `computeEnvelopeWeights`: the per-vertex loop simply applies
`calculateWeightsForVertex` to every vertex position (the source flattens the
4-tuples into `skinIndices`/`skinWeights` arrays; we keep them per vertex). -/
def computeEnvelopeWeights (sqrtQ expQ : ℚ → ℚ) (segments : List BoneSegment)
    (positions : List Vec3) : List (List ℕ × List ℚ) :=
  positions.map (fun v => calculateWeightsForVertex sqrtQ expQ v segments)

/-- `BONE_NAMES` of `autoRig.ts` (segment-index order, `Head_End` last). -/
def BONE_NAMES : List String :=
  ["Hips", "Spine", "Spine1", "Spine2", "Neck", "Head",
   "LeftUpLeg", "LeftLeg", "LeftFoot", "LeftToeBase",
   "RightUpLeg", "RightLeg", "RightFoot", "RightToeBase",
   "LeftShoulder", "LeftArm", "LeftForeArm", "LeftHand",
   "RightShoulder", "RightArm", "RightForeArm", "RightHand",
   "Head_End"]

/-- RGB colour with rational components in `[0, 1]` (a `THREE.Color`). -/
structure ColorRGB where
  r : ℚ
  g : ℚ
  b : ℚ
deriving DecidableEq, Repr

/-- `THREE.Color` from a hex triple: each byte divided by 255. -/
def hexColor (r g b : ℕ) : ColorRGB := ⟨(r : ℚ) / 255, (g : ℚ) / 255, (b : ℚ) / 255⟩

/-- The `BONE_COLORS` palette of `autoRig.ts`. -/
def BONE_COLORS : List (String × ColorRGB) :=
  [("Hips", hexColor 0xff 0x44 0x44), ("Spine", hexColor 0xff 0x88 0x44),
   ("Spine1", hexColor 0xff 0xaa 0x44), ("Spine2", hexColor 0xff 0xcc 0x44),
   ("Neck", hexColor 0xff 0xff 0x44), ("Head", hexColor 0xcc 0xff 0x44),
   ("LeftShoulder", hexColor 0x44 0xff 0x88), ("LeftArm", hexColor 0x44 0xff 0xcc),
   ("LeftForeArm", hexColor 0x44 0xff 0xff), ("LeftHand", hexColor 0x44 0xcc 0xff),
   ("RightShoulder", hexColor 0x88 0x44 0xff), ("RightArm", hexColor 0xaa 0x44 0xff),
   ("RightForeArm", hexColor 0xcc 0x44 0xff), ("RightHand", hexColor 0xff 0x44 0xff),
   ("LeftUpLeg", hexColor 0x44 0xff 0x44), ("LeftLeg", hexColor 0x88 0xff 0x44),
   ("LeftFoot", hexColor 0xaa 0xff 0x44), ("LeftToeBase", hexColor 0xcc 0xff 0x88),
   ("RightUpLeg", hexColor 0x44 0x88 0xff), ("RightLeg", hexColor 0x44 0xaa 0xff),
   ("RightFoot", hexColor 0x88 0xaa 0xff), ("RightToeBase", hexColor 0xaa 0xcc 0xff)]

/-- The colour-blending step of `computeWeightPreviewFromMarkers`: start from
the background `setRGB(0.06, 0.06, 0.06)`, add `boneColor * w` for each of the
four slots whose weight exceeds `0.01` (bone name looked up through
`BONE_NAMES`, falling back to `Hips` out of range, and through `BONE_COLORS`,
falling back to `0x888888`), then clamp each channel at 1. -/
def blendColor (idx : List ℕ) (wgt : List ℚ) : ColorRGB :=
  let step := fun (c : ColorRGB) (j : ℕ) =>
    let w := wgt.getD j 0
    if 1 / 100 < w then
      let boneName := BONE_NAMES.getD (idx.getD j 0) "Hips"
      let bc := ((BONE_COLORS.lookup boneName).getD (hexColor 0x88 0x88 0x88))
      ⟨c.r + bc.r * w, c.g + bc.g * w, c.b + bc.b * w⟩
    else c
  let c := (List.range 4).foldl step ⟨6 / 100, 6 / 100, 6 / 100⟩
  ⟨min 1 c.r, min 1 c.g, min 1 c.b⟩

/-- `buildSegments` of `autoRig.ts`: the fixed 22-segment envelope table over
resolved marker positions (`baseRadius` times the per-bone multiplier). -/
def buildSegments (pos : ResolvedMarkerPositions) : List BoneSegment :=
  let br := pos.baseRadius
  [⟨0, "Hips", pos.pelvis, pos.spine_mid, br * (18 / 10)⟩,
   ⟨1, "Spine", pos.spine_mid, pos.chest, br * (15 / 10)⟩,
   ⟨2, "Spine1", pos.chest, pos.spine2Pos, br * (14 / 10)⟩,
   ⟨3, "Spine2", pos.spine2Pos, pos.neckPos, br * (12 / 10)⟩,
   ⟨4, "Neck", pos.neckPos, pos.chin, br * (6 / 10)⟩,
   ⟨5, "Head", pos.chin, pos.head, br * 1⟩,
   ⟨6, "LeftUpLeg", pos.l_hip_joint, pos.l_knee, br * (11 / 10)⟩,
   ⟨7, "LeftLeg", pos.l_knee, pos.l_ankle, br * (8 / 10)⟩,
   ⟨8, "LeftFoot", pos.l_ankle, pos.l_toe, br * (6 / 10)⟩,
   ⟨9, "LeftToeBase", pos.l_toe, pos.l_toe.add ⟨0, 0, 1 / 20⟩, br * (4 / 10)⟩,
   ⟨10, "RightUpLeg", pos.r_hip_joint, pos.r_knee, br * (11 / 10)⟩,
   ⟨11, "RightLeg", pos.r_knee, pos.r_ankle, br * (8 / 10)⟩,
   ⟨12, "RightFoot", pos.r_ankle, pos.r_toe, br * (6 / 10)⟩,
   ⟨13, "RightToeBase", pos.r_toe, pos.r_toe.add ⟨0, 0, 1 / 20⟩, br * (4 / 10)⟩,
   ⟨14, "LeftShoulder", pos.spine2Pos, pos.l_shoulder, br * (8 / 10)⟩,
   ⟨15, "LeftArm", pos.l_armStart, pos.l_elbow, br * (7 / 10)⟩,
   ⟨16, "LeftForeArm", pos.l_elbow, pos.l_wrist, br * (6 / 10)⟩,
   ⟨17, "LeftHand", pos.l_wrist, pos.l_wrist.add ⟨1 / 20, 0, 0⟩, br * (5 / 10)⟩,
   ⟨18, "RightShoulder", pos.spine2Pos, pos.r_shoulder, br * (8 / 10)⟩,
   ⟨19, "RightArm", pos.r_armStart, pos.r_elbow, br * (7 / 10)⟩,
   ⟨20, "RightForeArm", pos.r_elbow, pos.r_wrist, br * (6 / 10)⟩,
   ⟨21, "RightHand", pos.r_wrist, pos.r_wrist.add ⟨-(1 / 20), 0, 0⟩, br * (5 / 10)⟩]

/-- Embedding of `computeWeightPreviewFromMarkers`: resolve the markers,
build the segments, and for every vertex run the *same*
`calculateWeightsForVertex` as the final solver, then blend the per-bone
palette colours with the resulting weights. -/
def computeWeightPreviewFromMarkers (sqrtQ expQ : ℚ → ℚ) (m : Markers)
    (positions : List Vec3) : List ColorRGB :=
  let pos := resolveMarkerPositions m
  let segments := buildSegments pos
  positions.map (fun v =>
    let iw := calculateWeightsForVertex sqrtQ expQ v segments
    blendColor iw.1 iw.2)

/-! ### Supporting lemmas for the skin-weight solver -/

theorem sum_map_mul_const (l : List ℚ) (c : ℚ) :
    (l.map (fun w => w * c)).sum = l.sum * c := by
  induction l with
  | nil => simp
  | cons a l ih => simp [ih, add_mul]

theorem sortWeightDesc_perm (l : List (ℕ × ℚ)) : (sortWeightDesc l).Perm l :=
  sortDescBy_perm Prod.snd l

theorem segmentWeight_nonneg (sqrtQ expQ : ℚ → ℚ) (hexp : ∀ x, 0 ≤ expQ x)
    (vertex : Vec3) (seg : BoneSegment) : 0 ≤ segmentWeight sqrtQ expQ vertex seg := by
  unfold segmentWeight
  set nd := distanceToSegment sqrtQ vertex seg.start seg.stop / seg.radius with hnd
  simp only
  split_ifs with h
  · have hpos : (0:ℚ) < 1 + (nd - 1) * 2 := by linarith
    exact mul_nonneg (hexp _) (le_of_lt (div_pos one_pos hpos))
  · exact hexp _

theorem range4_map_getD_snd (l : List (ℕ × ℚ)) (h : l.length ≤ 4) :
    ((List.range 4).map (fun i => (l.getD i ((0:ℕ), (0:ℚ))).2)).sum
      = (l.map Prod.snd).sum := by
  have h4 : List.range 4 = [0, 1, 2, 3] := by decide
  rcases l with _ | ⟨a, _ | ⟨b, _ | ⟨c, _ | ⟨d, rest⟩⟩⟩⟩
  · simp [h4, List.getD]
  · simp [h4, List.getD]
  · simp [h4, List.getD]
  · simp [h4, List.getD]
  · have hr : rest = [] := by
      rw [List.length_cons, List.length_cons, List.length_cons, List.length_cons] at h
      exact List.length_eq_zero.mp (by omega)
    subst hr
    simp [h4, List.getD]

/-- C2: for every vertex, `calculateWeightsForVertex` emits exactly 4 bone
indices and 4 weights, the weights are non-negative and sum to exactly 1, and
whenever the total accumulated influence of all bone segments on the vertex is
not positive, the fallback assigns full weight 1 to bone index 0 and 0 to the
remaining three slots.  `expQ` abstracts `Math.exp`, whose values are
non-negative. -/
theorem skinWeights_four_normalized (sqrtQ expQ : ℚ → ℚ) (vertex : Vec3)
    (segments : List BoneSegment) (hexp : ∀ x, 0 ≤ expQ x) :
    (calculateWeightsForVertex sqrtQ expQ vertex segments).1.length = 4 ∧
    (calculateWeightsForVertex sqrtQ expQ vertex segments).2.length = 4 ∧
    (∀ w ∈ (calculateWeightsForVertex sqrtQ expQ vertex segments).2, 0 ≤ w) ∧
    (calculateWeightsForVertex sqrtQ expQ vertex segments).2.sum = 1 ∧
    (totalInfluence sqrtQ expQ vertex segments ≤ 0 →
      (calculateWeightsForVertex sqrtQ expQ vertex segments).1.headD 1 = 0 ∧
      (calculateWeightsForVertex sqrtQ expQ vertex segments).2 = [1, 0, 0, 0]) := by
  unfold calculateWeightsForVertex
  set entries := (segments.take 30).map
    (fun seg => (seg.boneIndex, segmentWeight sqrtQ expQ vertex seg)) with hentries
  set sorted := sortWeightDesc entries with hsorted
  set top := sorted.take 4 with htop
  set outIndices := (List.range 4).map (fun i => (top.getD i (0, 0)).1) with hoi
  set outWeights := (List.range 4).map (fun i => (top.getD i (0, 0)).2) with how
  -- every entry weight is non-negative
  have hentnn : ∀ e ∈ entries, 0 ≤ e.2 := by
    intro e he
    rw [hentries] at he
    obtain ⟨seg, -, rfl⟩ := List.mem_map.mp he
    exact segmentWeight_nonneg sqrtQ expQ hexp vertex seg
  have hsortnn : ∀ e ∈ sorted, 0 ≤ e.2 := fun e he =>
    hentnn e ((sortWeightDesc_perm entries).mem_iff.mp he)
  have htopnn : ∀ e ∈ top, 0 ≤ e.2 := fun e he =>
    hsortnn e (List.mem_of_mem_take he)
  have hownn : ∀ w ∈ outWeights, 0 ≤ w := by
    intro w hw
    rw [how] at hw
    obtain ⟨i, -, rfl⟩ := List.mem_map.mp hw
    by_cases hlt : i < top.length
    · rw [List.getD_eq_getElem _ _ hlt]
      exact htopnn _ (List.getElem_mem hlt)
    · rw [List.getD_eq_default _ _ (le_of_not_lt hlt)]
  have holen : outIndices.length = 4 := by simp [hoi]
  have howlen : outWeights.length = 4 := by simp [how]
  -- the 4-slot total is exactly the sum of the kept weights, which is at most
  -- the total influence of all segments
  have hsum_top : outWeights.sum = (top.map Prod.snd).sum := by
    rw [how, htop]
    exact range4_map_getD_snd (sorted.take 4) (List.length_take_le 4 sorted)
  have hT_le : outWeights.sum ≤ totalInfluence sqrtQ expQ vertex segments := by
    rw [hsum_top]
    have h1 : (top.map Prod.snd).sum ≤ (sorted.map Prod.snd).sum := by
      conv_rhs => rw [← List.take_append_drop 4 sorted]
      rw [List.map_append, List.sum_append, ← htop]
      have : 0 ≤ ((sorted.drop 4).map Prod.snd).sum := by
        refine List.sum_nonneg ?_
        intro x hx
        obtain ⟨e, he, rfl⟩ := List.mem_map.mp hx
        exact hsortnn e (List.mem_of_mem_drop he)
      linarith
    have h2 : (sorted.map Prod.snd).sum = (entries.map Prod.snd).sum :=
      ((sortWeightDesc_perm entries).map Prod.snd).sum_eq
    have h3 : (entries.map Prod.snd).sum ≤ totalInfluence sqrtQ expQ vertex segments := by
      unfold totalInfluence
      have hmm : entries.map Prod.snd
          = (segments.take 30).map (fun seg => segmentWeight sqrtQ expQ vertex seg) := by
        rw [hentries, List.map_map]
        rfl
      rw [hmm]
      conv_rhs => rw [← List.take_append_drop 30 segments]
      rw [List.map_append, List.sum_append]
      have : 0 ≤ ((segments.drop 30).map
          (fun seg => segmentWeight sqrtQ expQ vertex seg)).sum := by
        refine List.sum_nonneg ?_
        intro x hx
        obtain ⟨seg, -, rfl⟩ := List.mem_map.mp hx
        exact segmentWeight_nonneg sqrtQ expQ hexp vertex seg
      linarith
    linarith
  by_cases hpos : 0 < outWeights.sum
  · rw [if_pos hpos]
    refine ⟨holen, by simp [howlen], ?_, ?_, ?_⟩
    · intro w hw
      obtain ⟨w0, hw0, rfl⟩ := List.mem_map.mp hw
      exact mul_nonneg (hownn w0 hw0) (by positivity)
    · rw [sum_map_mul_const, mul_one_div, div_self (ne_of_gt hpos)]
    · intro htot
      exact absurd hpos (by linarith)
  · rw [if_neg hpos]
    refine ⟨?_, by simp, ?_, by simp, fun _ => ⟨?_, rfl⟩⟩
    · have : outIndices.tail.length = 3 := by rw [List.length_tail, holen]
      simp [this]
    · intro w hw
      simp only [List.mem_cons] at hw
      rcases hw with rfl | rfl | rfl | rfl | h
      · norm_num
      · norm_num
      · norm_num
      · norm_num
      · simp at h
    · rfl

/-- Concrete evaluation of the C2 theorem: constant abstractions for
`sqrt`/`exp` and a single unit-radius segment. -/
theorem skinWeights_four_normalized_w :
    (calculateWeightsForVertex (fun _ => 0) (fun _ => 1) ⟨0, 0, 0⟩
      [⟨4, "Neck", ⟨0, 0, 0⟩, ⟨1, 0, 0⟩, 1⟩]).2.sum = 1 :=
  (skinWeights_four_normalized (fun _ => 0) (fun _ => 1) ⟨0, 0, 0⟩
    [⟨4, "Neck", ⟨0, 0, 0⟩, ⟨1, 0, 0⟩, 1⟩] (fun _ => by norm_num)).2.2.2.1

/-- C7: the live weight-preview entry point runs exactly the same per-vertex
computation (`calculateWeightsForVertex` over `buildSegments` of the resolved
markers) as the final skin-weight solver `computeEnvelopeWeights`, differing
only in that each resulting (indices, weights) pair is mapped to a blended RGB
colour. -/
theorem weightPreview_matches_solver (sqrtQ expQ : ℚ → ℚ) (m : Markers)
    (positions : List Vec3) :
    computeWeightPreviewFromMarkers sqrtQ expQ m positions =
      (computeEnvelopeWeights sqrtQ expQ (buildSegments (resolveMarkerPositions m))
        positions).map (fun iw => blendColor iw.1 iw.2) := by
  unfold computeWeightPreviewFromMarkers computeEnvelopeWeights
  rw [List.map_map]
  rfl

/-! ## Bone-name normalization and matching (`src/utils/math.ts`)

Strings are processed as `List Char` (the `.data` of a `String`), which makes
the regex-replacement pipeline of `normalizeBoneName` a sequence of plain list
transformations. -/

/-- Substring containment (`String.prototype.includes`): some tail of `hay`
starts with `pat`. -/
def listContains (hay pat : List Char) : Bool :=
  hay.tails.any (fun t => pat.isPrefixOf t)

/-- One global regex replacement of the form `/tok[opts]?/g` by the empty
string, where `tok = t0 :: ttail` and `[opts]` is an optional single trailing
character from `opts`.  This is a single left-to-right scan restarting right
after each match, exactly like `String.prototype.replace` with a `/g` regex.
Instances used by `normalizeBoneName`: `mixamorig:?`, `bip01[_ ]?`,
`def[_-]?`, `org[_-]?`, `mch[_-]?`. -/
def stripTokOpt (t0 : Char) (ttail opts : List Char) : List Char → List Char
  | [] => []
  | c :: rest =>
    if c = t0 ∧ ttail.isPrefixOf rest then
      match h : rest.drop ttail.length with
      | [] => []
      | d :: rest2 =>
        if opts.contains d then stripTokOpt t0 ttail opts rest2
        else stripTokOpt t0 ttail opts (d :: rest2)
    else c :: stripTokOpt t0 ttail opts rest
termination_by l => l.length
decreasing_by
  · have hlen := congrArg List.length h
    simp only [List.length_drop, List.length_cons] at hlen ⊢
    omega
  · have hlen := congrArg List.length h
    simp only [List.length_drop, List.length_cons] at hlen ⊢
    omega
  · simp only [List.length_cons]
    omega

/-- Removal of the separator class `[_.\-:]` (a global single-character class
replacement is a filter). -/
def stripSeps (s : List Char) : List Char :=
  s.filter (fun c => ¬(['_', '.', '-', ':'].contains c))

/-- Removal of a trailing digit run (`/\d+$/`). -/
def stripTrailingDigits (s : List Char) : List Char :=
  (s.reverse.dropWhile Char.isDigit).reverse

/-- `String.prototype.trim`: strip leading and trailing whitespace. -/
def trimStr (s : List Char) : List Char :=
  ((s.dropWhile Char.isWhitespace).reverse.dropWhile Char.isWhitespace).reverse

/-- Embedding of `normalizeBoneName`: lowercase, strip the known rig prefixes
(each a global optional-trailing-separator token replacement), drop separator
characters, drop trailing digits, trim. -/
def normalizeBoneName (name : String) : List Char :=
  let s := name.data.map Char.toLower
  let s := stripTokOpt 'm' "ixamorig".data [':'] s
  let s := stripTokOpt 'b' "ip01".data ['_', ' '] s
  let s := stripTokOpt 'd' "ef".data ['_', '-'] s
  let s := stripTokOpt 'o' "rg".data ['_', '-'] s
  let s := stripTokOpt 'm' "ch".data ['_', '-'] s
  let s := stripSeps s
  let s := stripTrailingDigits s
  trimStr s

/-- Embedding of `levenshtein`.  The source fills the standard DP matrix whose
entry `(i, j)` satisfies precisely this recurrence (base row/column `i`, `j`;
step `min(del + 1, ins + 1, sub + cost)`), together with the two early returns
for empty inputs; we embed the recurrence directly. -/
def levenshtein : List Char → List Char → ℕ
  | [], b => b.length
  | a, [] => a.length
  | x :: xs, y :: ys =>
    let cost : ℕ := if x = y then 0 else 1
    min (levenshtein xs (y :: ys) + 1)
      (min (levenshtein (x :: xs) ys + 1) (levenshtein xs ys + cost))
termination_by a b => a.length + b.length
decreasing_by
  all_goals simp only [List.length_cons]
  all_goals omega

/-- `BONE_ALIAS_GROUPS` of `src/utils/math.ts` (`Object.values` order). -/
def BONE_ALIAS_GROUPS : List (List String) :=
  [["hips", "pelvis", "root", "hip", "cog", "center", "torso"],
   ["spine", "spine1", "abdomen", "abdominal"],
   ["spine1", "spine2", "chest_lower", "lowerchest"],
   ["spine2", "spine3", "chest", "upperchest", "upper_body"],
   ["neck", "neck1"],
   ["head", "skull"],
   ["leftshoulder", "lshoulder", "l_clavicle", "clavicle_l", "shoulder_l"],
   ["leftarm", "larm", "l_upperarm", "upperarm_l", "lbicep", "l_arm"],
   ["leftforearm", "lforearm", "l_lowerarm", "lowerarm_l", "l_forearm", "lcalf"],
   ["lefthand", "lhand", "l_hand", "hand_l", "l_wrist", "wrist_l"],
   ["rightshoulder", "rshoulder", "r_clavicle", "clavicle_r", "shoulder_r"],
   ["rightarm", "rarm", "r_upperarm", "upperarm_r", "rbicep", "r_arm"],
   ["rightforearm", "rforearm", "r_lowerarm", "lowerarm_r", "r_forearm", "rcalf"],
   ["righthand", "rhand", "r_hand", "hand_r", "r_wrist", "wrist_r"],
   ["leftupleg", "lupleg", "l_thigh", "thigh_l", "l_upperleg", "upperleg_l", "leftthigh"],
   ["leftleg", "lleg", "l_calf", "calf_l", "l_shin", "shin_l", "l_lowerleg", "lowerleg_l"],
   ["leftfoot", "lfoot", "l_foot", "foot_l", "l_ankle", "ankle_l"],
   ["lefttoebase", "ltoebase", "l_toe", "toe_l", "l_ball", "ball_l", "lefttoe"],
   ["rightupleg", "rupleg", "r_thigh", "thigh_r", "r_upperleg", "upperleg_r", "rightthigh"],
   ["rightleg", "rleg", "r_calf", "calf_r", "r_shin", "shin_r", "r_lowerleg", "lowerleg_r"],
   ["rightfoot", "rfoot", "r_foot", "foot_r", "r_ankle", "ankle_r"],
   ["righttoebase", "rtoebase", "r_toe", "toe_r", "r_ball", "ball_r", "righttoe"]]

/-- A normalized name "lands in" an alias group when it equals or contains one
of the group's aliases (`tNorm === a || tNorm.includes(a)`). -/
def nameInGroup (n : List Char) (g : List String) : Bool :=
  g.any (fun a => n = a.data || listContains n a.data)

/-- The alias-group test of `scoreBoneMatch`: some group contains both
normalized names (the source's `for` loop over `Object.values` returns 90 at
the first such group, which as a value is just this existence test). -/
def aliasBoth (t s : List Char) : Bool :=
  BONE_ALIAS_GROUPS.any (fun g => nameInGroup t g && nameInGroup s g)

/-- Embedding of `scoreBoneMatch` (similarity score 0–100).  `Math.round` is
Mathlib's `round` (round half toward positive infinity, which agrees with the
JavaScript function on every input). -/
def scoreBoneMatch (targetName sourceName : String) : ℤ :=
  let tNorm := normalizeBoneName targetName
  let sNorm := normalizeBoneName sourceName
  if tNorm = sNorm then 100
  else if aliasBoth tNorm sNorm then 90
  else if 3 ≤ tNorm.length ∧ 3 ≤ sNorm.length ∧
      (listContains tNorm sNorm ∨ listContains sNorm tNorm) then
    let longerLen : ℚ := max tNorm.length sNorm.length
    let shorterLen : ℚ := min tNorm.length sNorm.length
    60 + round (shorterLen / longerLen * 30)
  else
    let maxLen := max tNorm.length sNorm.length
    if 0 < maxLen ∧ maxLen ≤ 20 then
      let dist := levenshtein tNorm sNorm
      let similarity : ℚ := 1 - (dist : ℚ) / (maxLen : ℚ)
      if 3 / 5 ≤ similarity then round (similarity * 70) else 0
    else 0

/-- A scored candidate pair of the matcher. -/
structure Candidate where
  target : String
  source : String
  score : ℤ
deriving DecidableEq, Repr

/-- Candidate generation of `matchBones`: all (target, source) pairs with a
positive score, in the nested-loop order of the source. -/
def candidatesFor (targetBones sourceBones : List String) : List Candidate :=
  (targetBones.map (fun t =>
    sourceBones.filterMap (fun s =>
      if 0 < scoreBoneMatch t s then some ⟨t, s, scoreBoneMatch t s⟩ else none))).flatten

/-- JavaScript object-key assignment `mapping[k] = v`: replace in place if the
key exists, otherwise append. -/
def setAssoc : List (String × String) → String → String → List (String × String)
  | [], k, v => [(k, v)]
  | (k', v') :: rest, k, v =>
    if k' = k then (k, v) :: rest else (k', v') :: setAssoc rest k v

/-- The greedy assignment loop of `matchBones` over the sorted candidate list:
stop at the first score below the floor 40 (`break`); skip a pair whose
target is already assigned (JavaScript truthiness: an assigned empty string
does not count) or whose source is already used; otherwise commit. -/
def greedyAssign : List Candidate → List (String × String) → List String →
    List (String × String)
  | [], m, _ => m
  | c :: rest, m, used =>
    if c.score < 40 then m
    else if ((m.lookup c.target).getD "") ≠ "" ∨ used.contains c.source then
      greedyAssign rest m used
    else
      greedyAssign rest (setAssoc m c.target c.source) (c.source :: used)

/-- Embedding of `matchBones` over the two skeletons' bone-name lists: score
all pairs, stable-sort descending by score, then greedily assign. -/
def matchBones (targetBones sourceBones : List String) : List (String × String) :=
  greedyAssign (sortDescBy Candidate.score (candidatesFor targetBones sourceBones)) [] []

/-! ### C8: the score cascade as the specification states it -/

/-- The C8 claim's score cascade, written clause by clause from the claim's
wording: 100 on exact match after normalization; otherwise 90 when both names
match entries in the same alias group; otherwise, when both normalized names
have length ≥ 3 and one contains the other,
`60 + round(30 * shorterLen / longerLen)`; otherwise, when both normalized
names are ≤ 20 characters and `similarity = 1 - editDistance / maxLength` is
at least 0.6, `round(70 * similarity)`; otherwise 0. -/
def c8StatedScore (targetName sourceName : String) : ℤ :=
  let tNorm := normalizeBoneName targetName
  let sNorm := normalizeBoneName sourceName
  if tNorm = sNorm then 100
  else if aliasBoth tNorm sNorm then 90
  else if 3 ≤ tNorm.length ∧ 3 ≤ sNorm.length ∧
      (listContains tNorm sNorm ∨ listContains sNorm tNorm) then
    60 + round (30 * ((min tNorm.length sNorm.length : ℚ) / (max tNorm.length sNorm.length : ℚ)))
  else if tNorm.length ≤ 20 ∧ sNorm.length ≤ 20 then
    let similarity : ℚ :=
      1 - (levenshtein tNorm sNorm : ℚ) / ((max tNorm.length sNorm.length : ℕ) : ℚ)
    if 3 / 5 ≤ similarity then round (70 * similarity) else 0
  else 0

/-- C8: `scoreBoneMatch` computes exactly the cascade the specification
states.  (The code guards the edit-distance clause with `0 < maxLen` rather
than "both ≤ 20", but `maxLen = 0` forces both normalized names empty and
hence equal, which the first clause already caught.) -/
theorem scoreBoneMatch_cascade (a b : String) :
    scoreBoneMatch a b = c8StatedScore a b := by
  unfold scoreBoneMatch c8StatedScore
  set t := normalizeBoneName a with ht
  set s := normalizeBoneName b with hs
  by_cases h1 : t = s
  · simp only [if_pos h1]
  simp only [if_neg h1]
  by_cases h2 : aliasBoth t s = true
  · simp only [if_pos h2]
  simp only [Bool.not_eq_true] at h2
  simp only [h2, Bool.false_eq_true, if_false]
  by_cases h3 : 3 ≤ t.length ∧ 3 ≤ s.length ∧ (listContains t s ∨ listContains s t)
  · simp only [if_pos h3]
    rw [mul_comm]
  simp only [if_neg h3]
  have hiff : (0 < max t.length s.length ∧ max t.length s.length ≤ 20) ↔
      (t.length ≤ 20 ∧ s.length ≤ 20) := by
    constructor
    · intro h
      exact ⟨le_trans (le_max_left _ _) h.2, le_trans (le_max_right _ _) h.2⟩
    · intro h
      refine ⟨?_, max_le h.1 h.2⟩
      by_contra hz
      push_neg at hz
      interval_cases hmax : max t.length s.length
      have ht0 : t.length = 0 := Nat.le_zero.mp (le_trans (le_max_left _ _) hmax.le)
      have hs0 : s.length = 0 := Nat.le_zero.mp (le_trans (le_max_right _ _) hmax.le)
      exact h1 ((List.length_eq_zero.mp ht0).trans (List.length_eq_zero.mp hs0).symm)
  by_cases h4 : t.length ≤ 20 ∧ s.length ≤ 20
  · simp only [if_pos h4, if_pos (hiff.mpr h4)]
    rw [mul_comm]
  · simp only [if_neg h4, if_neg (fun hc => h4 (hiff.mp hc))]

/-! ### C10: symmetry of the score -/

theorem levenshtein_nil_left (b : List Char) : levenshtein [] b = b.length := by
  cases b <;> simp [levenshtein]

theorem levenshtein_nil_right (a : List Char) : levenshtein a [] = a.length := by
  cases a <;> simp [levenshtein]

theorem levenshtein_comm (a b : List Char) : levenshtein a b = levenshtein b a := by
  generalize hn : a.length + b.length = n
  induction n using Nat.strong_induction_on generalizing a b with
  | _ n ih =>
    match a, b with
    | [], b => rw [levenshtein_nil_left, levenshtein_nil_right]
    | a, [] => rw [levenshtein_nil_left, levenshtein_nil_right]
    | x :: xs, y :: ys =>
      simp only [List.length_cons] at hn
      have i1 : levenshtein xs (y :: ys) = levenshtein (y :: ys) xs :=
        ih (xs.length + (y :: ys).length) (by simp only [List.length_cons]; omega)
          xs (y :: ys) rfl
      have i2 : levenshtein (x :: xs) ys = levenshtein ys (x :: xs) :=
        ih ((x :: xs).length + ys.length) (by simp only [List.length_cons]; omega)
          (x :: xs) ys rfl
      have i3 : levenshtein xs ys = levenshtein ys xs :=
        ih (xs.length + ys.length) (by omega) xs ys rfl
      have hcost : (if x = y then (0:ℕ) else 1) = (if y = x then 0 else 1) := by
        by_cases hxy : x = y
        · rw [if_pos hxy, if_pos hxy.symm]
        · rw [if_neg hxy, if_neg (fun h => hxy h.symm)]
      rw [levenshtein, levenshtein]
      rw [i1, i2, i3, hcost]
      omega

theorem aliasBoth_comm (t s : List Char) : aliasBoth t s = aliasBoth s t := by
  unfold aliasBoth
  rw [Bool.eq_iff_iff, List.any_eq_true, List.any_eq_true]
  constructor
  · rintro ⟨g, hg, hp⟩
    exact ⟨g, hg, by rwa [Bool.and_comm]⟩
  · rintro ⟨g, hg, hp⟩
    exact ⟨g, hg, by rwa [Bool.and_comm]⟩

/-- C10: the bone-name similarity score is symmetric in its two arguments:
every clause of the cascade (normalization, alias groups, mutual containment
with min/max lengths, symmetric edit distance) is invariant under swapping
target and source. -/
theorem scoreBoneMatch_comm (a b : String) :
    scoreBoneMatch a b = scoreBoneMatch b a := by
  unfold scoreBoneMatch
  set t := normalizeBoneName a with ht
  set s := normalizeBoneName b with hs
  by_cases h1 : t = s
  · simp only [if_pos h1, if_pos h1.symm]
  have h1' : ¬(s = t) := fun h => h1 h.symm
  simp only [if_neg h1, if_neg h1']
  rw [aliasBoth_comm]
  by_cases h2 : aliasBoth s t = true
  · simp only [if_pos h2]
  simp only [Bool.not_eq_true] at h2
  simp only [h2, Bool.false_eq_true, if_false]
  have hc3 : (3 ≤ t.length ∧ 3 ≤ s.length ∧ (listContains t s ∨ listContains s t)) ↔
      (3 ≤ s.length ∧ 3 ≤ t.length ∧ (listContains s t ∨ listContains t s)) := by
    constructor
    · rintro ⟨u, v, w⟩; exact ⟨v, u, w.symm⟩
    · rintro ⟨u, v, w⟩; exact ⟨v, u, w.symm⟩
  by_cases h3 : 3 ≤ t.length ∧ 3 ≤ s.length ∧ (listContains t s ∨ listContains s t)
  · simp only [if_pos h3, if_pos (hc3.mp h3)]
    rw [max_comm, min_comm]
  · simp only [if_neg h3, if_neg (fun hc => h3 (hc3.mpr hc))]
    rw [max_comm s.length t.length, levenshtein_comm s t]

/-! ### C4: the greedy assignment is an injective partial map above the floor -/

theorem setAssoc_mem {m : List (String × String)} {k v : String}
    {p : String × String} (hp : p ∈ setAssoc m k v) : p = (k, v) ∨ p ∈ m := by
  induction m with
  | nil =>
    simp only [setAssoc, List.mem_singleton] at hp
    exact Or.inl hp
  | cons q rest ih =>
    obtain ⟨k', v'⟩ := q
    unfold setAssoc at hp
    split at hp
    · rcases List.mem_cons.mp hp with h | h
      · exact Or.inl h
      · exact Or.inr (List.mem_cons_of_mem _ h)
    · rcases List.mem_cons.mp hp with h | h
      · exact Or.inr (h ▸ List.mem_cons_self _ _)
      · rcases ih h with h' | h'
        · exact Or.inl h'
        · exact Or.inr (List.mem_cons_of_mem _ h')

theorem setAssoc_keys_subset {m : List (String × String)} {k v : String}
    {x : String} (hx : x ∈ (setAssoc m k v).map Prod.fst) :
    x ∈ m.map Prod.fst ∨ x = k := by
  obtain ⟨p, hp, rfl⟩ := List.mem_map.mp hx
  rcases setAssoc_mem hp with h | h
  · exact Or.inr (by rw [h])
  · exact Or.inl (List.mem_map.mpr ⟨p, h, rfl⟩)

theorem setAssoc_values_subset {m : List (String × String)} {k v : String}
    {x : String} (hx : x ∈ (setAssoc m k v).map Prod.snd) :
    x ∈ m.map Prod.snd ∨ x = v := by
  obtain ⟨p, hp, rfl⟩ := List.mem_map.mp hx
  rcases setAssoc_mem hp with h | h
  · exact Or.inr (by rw [h])
  · exact Or.inl (List.mem_map.mpr ⟨p, h, rfl⟩)

theorem setAssoc_keys_nodup {m : List (String × String)} (k v : String)
    (h : (m.map Prod.fst).Nodup) : ((setAssoc m k v).map Prod.fst).Nodup := by
  induction m with
  | nil => simp [setAssoc]
  | cons q rest ih =>
    obtain ⟨k', v'⟩ := q
    simp only [List.map_cons, List.nodup_cons] at h
    unfold setAssoc
    split
    · rename_i hk
      subst hk
      simpa using h
    · rename_i hk
      simp only [List.map_cons, List.nodup_cons]
      refine ⟨?_, ih h.2⟩
      intro hmem
      rcases setAssoc_keys_subset hmem with h' | h'
      · exact h.1 h'
      · exact hk h'

theorem setAssoc_values_nodup {m : List (String × String)} (k v : String)
    (h : (m.map Prod.snd).Nodup) (hv : v ∉ m.map Prod.snd) :
    ((setAssoc m k v).map Prod.snd).Nodup := by
  induction m with
  | nil => simp [setAssoc]
  | cons q rest ih =>
    obtain ⟨k', v'⟩ := q
    simp only [List.map_cons, List.nodup_cons] at h
    simp only [List.map_cons, List.mem_cons] at hv
    push_neg at hv
    unfold setAssoc
    split
    · simp only [List.map_cons, List.nodup_cons]
      exact ⟨fun hmem => hv.2 hmem, h.2⟩
    · simp only [List.map_cons, List.nodup_cons]
      refine ⟨?_, ih h.2 hv.2⟩
      intro hmem
      rcases setAssoc_values_subset hmem with h' | h'
      · exact h.1 h'
      · exact hv.1 h'.symm

theorem greedyAssign_invariant (cs : List Candidate) (m : List (String × String))
    (used : List String)
    (hcs : ∀ c ∈ cs, c.score = scoreBoneMatch c.target c.source)
    (hk : (m.map Prod.fst).Nodup) (hv : (m.map Prod.snd).Nodup)
    (hu : ∀ p ∈ m, p.2 ∈ used)
    (hsc : ∀ p ∈ m, 40 ≤ scoreBoneMatch p.1 p.2) :
    ((greedyAssign cs m used).map Prod.fst).Nodup ∧
    ((greedyAssign cs m used).map Prod.snd).Nodup ∧
    (∀ p ∈ greedyAssign cs m used, 40 ≤ scoreBoneMatch p.1 p.2) := by
  induction cs generalizing m used with
  | nil => exact ⟨hk, hv, hsc⟩
  | cons c rest ih =>
    rw [greedyAssign]
    split_ifs with h40 hskip
    · exact ⟨hk, hv, hsc⟩
    · exact ih _ _ (fun c' hc' => hcs c' (List.mem_cons_of_mem _ hc')) hk hv hu hsc
    · push_neg at hskip
      have hnotused : c.source ∉ used := by
        intro hmem
        have : used.contains c.source = true := List.elem_eq_true_of_mem hmem
        rw [this] at hskip
        exact absurd rfl hskip.2
      have hvnot : c.source ∉ m.map Prod.snd := by
        intro hmem
        obtain ⟨p, hp, hps⟩ := List.mem_map.mp hmem
        exact hnotused (hps ▸ hu p hp)
      refine ih _ _ (fun c' hc' => hcs c' (List.mem_cons_of_mem _ hc'))
        (setAssoc_keys_nodup _ _ hk) (setAssoc_values_nodup _ _ hv hvnot) ?_ ?_
      · intro p hp
        rcases setAssoc_mem hp with h | h
        · rw [h]
          exact List.mem_cons_self _ _
        · exact List.mem_cons_of_mem _ (hu p h)
      · intro p hp
        rcases setAssoc_mem hp with h | h
        · rw [h]
          have := hcs c (List.mem_cons_self _ _)
          simp only at this ⊢
          omega
        · exact hsc p h

/-- C4: the mapping produced by `matchBones` is an injective partial function
— no target bone name is assigned twice (the key list has no duplicates) and
no source bone name is used twice (the value list has no duplicates) — and
every committed (target, source) pair scores at least the floor of 40. -/
theorem matchBones_injective_above_floor (targetBones sourceBones : List String) :
    ((matchBones targetBones sourceBones).map Prod.fst).Nodup ∧
    ((matchBones targetBones sourceBones).map Prod.snd).Nodup ∧
    (∀ p ∈ matchBones targetBones sourceBones, 40 ≤ scoreBoneMatch p.1 p.2) := by
  unfold matchBones
  refine greedyAssign_invariant _ [] [] ?_ (by simp) (by simp) (by simp) (by simp)
  intro c hc
  have hc' : c ∈ candidatesFor targetBones sourceBones :=
    (sortDescBy_perm Candidate.score _).mem_iff.mp hc
  unfold candidatesFor at hc'
  rw [List.mem_flatten] at hc'
  obtain ⟨l', hl', hcl⟩ := hc'
  obtain ⟨t, -, rfl⟩ := List.mem_map.mp hl'
  rw [List.mem_filterMap] at hcl
  obtain ⟨s, -, heq⟩ := hcl
  by_cases h : 0 < scoreBoneMatch t s
  · rw [if_pos h] at heq
    cases Option.some.inj heq
    rfl
  · rw [if_neg h] at heq
    cases heq

/-! ## Retarget engine (the retarget worker's V1 frame loop)

Quaternions are embedded with exact rational components.  `THREE`'s `slerp`
is transcendental, so the engine is parametrized by a function
`slerpF q0 q1 alpha`; the only fact about it any theorem assumes is
`slerpF q0 q1 0 = q0`, which `THREE.Quaternion.slerp` guarantees by an early
return at `t === 0`.  The NaN guards of the worker
(`if (isNaN(outRot.x)) outRot.identity()` and the position fallback) protect
against float NaN only and have no rational inhabitant; they are omitted. -/

/-- Quaternion with exact rational components (`THREE.Quaternion`). -/
structure QuatQ where
  x : ℚ
  y : ℚ
  z : ℚ
  w : ℚ
deriving DecidableEq, Repr

namespace QuatQ

/-- Hamilton product, the component formula of
`THREE.Quaternion.multiplyQuaternions(a, b)`. -/
def mul (a b : QuatQ) : QuatQ :=
  ⟨a.x * b.w + a.w * b.x + a.y * b.z - a.z * b.y,
   a.y * b.w + a.w * b.y + a.z * b.x - a.x * b.z,
   a.z * b.w + a.w * b.z + a.x * b.y - a.y * b.x,
   a.w * b.w - a.x * b.x - a.y * b.y - a.z * b.z⟩

/-- `THREE.Quaternion.invert` (conjugate; THREE assumes the quaternion is
unit). -/
def conj (q : QuatQ) : QuatQ := ⟨-q.x, -q.y, -q.z, q.w⟩

def identity : QuatQ := ⟨0, 0, 0, 1⟩

def normSq (q : QuatQ) : ℚ := q.x * q.x + q.y * q.y + q.z * q.z + q.w * q.w

def smulQ (s : ℚ) (q : QuatQ) : QuatQ := ⟨s * q.x, s * q.y, s * q.z, s * q.w⟩

/-- The mathematical inverse `conj q / normSq q` (for a unit quaternion this
coincides with `conj`, i.e. with THREE's `invert`). -/
def inv (q : QuatQ) : QuatQ := smulQ (1 / normSq q) (conj q)

theorem mul_identity_left (q : QuatQ) : mul identity q = q := by
  obtain ⟨x, y, z, w⟩ := q
  simp only [mul, identity]
  congr 1 <;> ring

theorem conj_eq_inv_of_unit {q : QuatQ} (h : normSq q = 1) : conj q = inv q := by
  unfold inv
  rw [h]
  obtain ⟨x, y, z, w⟩ := q
  simp only [smulQ, conj]
  congr 1 <;> ring

theorem mul_conj_of_unit {q : QuatQ} (h : normSq q = 1) : mul q (conj q) = identity := by
  obtain ⟨x, y, z, w⟩ := q
  simp only [normSq] at h
  simp only [mul, conj, identity]
  congr 1 <;> nlinarith [h]

end QuatQ

/-- A keyframe track as it reaches the worker: parallel `times` and flattened
`values` arrays (3 values per key for positions, 4 for quaternions). -/
structure Track where
  times : List ℚ
  values : List ℚ
deriving DecidableEq, Repr

/-- The `pos`/`quat` pair of `sourceBoneTracks[boneName]`. -/
structure TrackGroup where
  pos : Option Track
  quat : Option Track
deriving DecidableEq, Repr

/-- The keyframe search of `sampleTrack`:
`while (idx < times.length - 1 && times[idx + 1] < t) idx++`. -/
def trackIndex (t : ℚ) : List ℚ → ℕ
  | [] => 0
  | [_] => 0
  | _ :: t1 :: rest => if t1 < t then trackIndex t (t1 :: rest) + 1 else 0

/-- Interpolation weight of `sampleTrack`: `t1 = times[idx+1] ?? t0`;
`alpha = t1 === t0 ? 0 : (t - t0) / (t1 - t0)`. -/
def trackAlpha (trk : Track) (t : ℚ) : ℚ :=
  let idx := trackIndex t trk.times
  let t0 := trk.times.getD idx 0
  let t1 := trk.times.getD (idx + 1) t0
  if t1 = t0 then 0 else (t - t0) / (t1 - t0)

/-- The i-th 3-vector stored in a flattened values array (out-of-range reads
default to 0; in the float code such reads only happen multiplied by
`alpha = 0`). -/
def vecAt (values : List ℚ) (i : ℕ) : Vec3 :=
  ⟨values.getD (3 * i) 0, values.getD (3 * i + 1) 0, values.getD (3 * i + 2) 0⟩

/-- The i-th quaternion stored in a flattened values array. -/
def quatAt (values : List ℚ) (i : ℕ) : QuatQ :=
  ⟨values.getD (4 * i) 0, values.getD (4 * i + 1) 0,
   values.getD (4 * i + 2) 0, values.getD (4 * i + 3) 0⟩

/-- `sampleTrack` on a position track: componentwise linear interpolation
between the keyframes around `t`. -/
def sampleVec (trk : Track) (t : ℚ) : Vec3 :=
  let idx := trackIndex t trk.times
  let alpha := trackAlpha trk t
  let v0 := vecAt trk.values idx
  let v1 := vecAt trk.values (idx + 1)
  ⟨v0.x + (v1.x - v0.x) * alpha, v0.y + (v1.y - v0.y) * alpha,
   v0.z + (v1.z - v0.z) * alpha⟩

/-- `sampleTrack` on a rotation track: spherical interpolation (`slerpF`)
between the keyframes around `t`. -/
def sampleQuat (slerpF : QuatQ → QuatQ → ℚ → QuatQ) (trk : Track) (t : ℚ) : QuatQ :=
  let idx := trackIndex t trk.times
  slerpF (quatAt trk.values idx) (quatAt trk.values (idx + 1)) (trackAlpha trk t)

/-- The source rotation sample used by the V1 pass: the slerped track sample,
or the identity when the bone has no rotation track
(`if (!hasRot) srcRot.identity()`). -/
def sourceAnimSample (slerpF : QuatQ → QuatQ → ℚ → QuatQ)
    (quatTrk : Option Track) (t : ℚ) : QuatQ :=
  match quatTrk with
  | some trk => sampleQuat slerpF trk t
  | none => QuatQ.identity

/-- The V1 rotation of one bone at one frame:
`outRot.copy(tgtRestQ).multiply(srcRestQ.clone().invert()).multiply(srcRot)`,
with missing rest entries defaulting to the identity. -/
def retargetFrameRot (slerpF : QuatQ → QuatQ → ℚ → QuatQ)
    (srcRestO tgtRestO : Option QuatQ) (quatTrk : Option Track) (t : ℚ) : QuatQ :=
  let srcRot := sourceAnimSample slerpF quatTrk t
  let srcRestQ := srcRestO.getD QuatQ.identity
  let tgtRestQ := tgtRestO.getD QuatQ.identity
  (tgtRestQ.mul srcRestQ.conj).mul srcRot

/-- The V1 root position of one frame:
`tgtRestPos + (srcPos - srcStartPos) * globalScale` componentwise. -/
def retargetFramePos (ptrk : Track) (srcStart tgtRestP : Vec3) (gs : ℚ)
    (t : ℚ) : Vec3 :=
  let sp := sampleVec ptrk t
  ⟨tgtRestP.x + (sp.x - srcStart.x) * gs,
   tgtRestP.y + (sp.y - srcStart.y) * gs,
   tgtRestP.z + (sp.z - srcStart.z) * gs⟩

/-- `findRootBoneName`: first name matching `/Hips|Root|Pelvis/i`, i.e.
containing one of the three tokens case-insensitively. -/
def isRootName (n : String) : Bool :=
  let ln := n.data.map Char.toLower
  listContains ln "hips".data || listContains ln "root".data ||
    listContains ln "pelvis".data

/-- Per-bone output accumulated by the frame loop (`resultData[targetBone]`):
times, one quaternion per frame, and — for the root bone with a position
track — one position per frame. -/
structure BoneResult where
  times : List ℚ
  rots : List QuatQ
  poss : List Vec3
deriving DecidableEq, Repr

/-- The full per-bone result of the V1 frame loop.  The source iterates frames
outermost and bones innermost, appending to per-bone arrays; per bone the
outcome is this map over frame indices (`t = i / fps`).  `isRoot` is the
worker's `targetBone === tgtRootName`; a position is pushed per frame exactly
when the bone is the root and its source group has a position track
(`hasPos`). -/
def boneResult (slerpF : QuatQ → QuatQ → ℚ → QuatQ) (grp : TrackGroup)
    (srcRestO tgtRestO : Option QuatQ) (isRoot : Bool)
    (srcStart tgtRestP : Vec3) (gs : ℚ) (numFrames : ℕ) (dt : ℚ) : BoneResult :=
  { times := (List.range numFrames).map (fun i : ℕ => (i : ℚ) * dt),
    rots := (List.range numFrames).map
      (fun i : ℕ => retargetFrameRot slerpF srcRestO tgtRestO grp.quat ((i : ℚ) * dt)),
    poss :=
      match grp.pos, isRoot with
      | some ptrk, true =>
        (List.range numFrames).map
          (fun i : ℕ => retargetFramePos ptrk srcStart tgtRestP gs ((i : ℚ) * dt))
      | _, _ => [] }

/-- An output track of the worker (`type: 'quaternion'` or `'vector'`).  The
final serialization into `Float32Array`s is a lossy float conversion outside
the embedded arithmetic; values stay structured here. -/
inductive OutTrack
  | rotation (name : String) (times : List ℚ) (values : List QuatQ)
  | position (name : String) (times : List ℚ) (values : List Vec3)
deriving DecidableEq, Repr

/-- `srcStartPos`: the first keyframe (values[0..2]) of the source root's
position track, defaulting to the origin (`new THREE.Vector3()`). -/
def sourceStartPos (sourceTracks : List (String × TrackGroup)) : Vec3 :=
  match ((sourceTracks.map Prod.fst).find? isRootName).bind
      (fun n => sourceTracks.lookup n) with
  | some g =>
    match g.pos with
    | some ptrk =>
      if 3 ≤ ptrk.values.length then
        ⟨ptrk.values.getD 0 0, ptrk.values.getD 1 0, ptrk.values.getD 2 0⟩
      else Vec3.zero
    | none => Vec3.zero
  | none => Vec3.zero

/-- Embedding of the worker's V1 frame loop and track assembly.  `mapping` is
the (targetBone, sourceBone) association in key order, `sourceTracks` the
grouped source tracks, `srcRestOf`/`tgtRestOf` the rest-rotation tables,
`tgtRestPosOf` the target skeleton's rest positions (`userData.restPos`).
Per mapped bone: skip entirely when the source bone name is empty (falsy) or
has no track group (`continue`); otherwise emit a rotation track over all
frames, plus a position track for the root target bone when its source group
carries a position component. -/
def runRetarget (slerpF : QuatQ → QuatQ → ℚ → QuatQ)
    (mapping : List (String × String)) (sourceTracks : List (String × TrackGroup))
    (srcRestOf tgtRestOf : String → Option QuatQ)
    (tgtRestPosOf : String → Option Vec3)
    (gs : ℚ) (numFrames : ℕ) (dt : ℚ) : List OutTrack :=
  let tgtRootName := (mapping.map Prod.fst).find? isRootName
  let srcStart := sourceStartPos sourceTracks
  let tgtRestP := (tgtRootName.bind tgtRestPosOf).getD Vec3.zero
  (mapping.map (fun tb_sb =>
    let tb := tb_sb.1
    let sb := tb_sb.2
    if sb = "" then []
    else
      match sourceTracks.lookup sb with
      | none => []
      | some grp =>
        let res := boneResult slerpF grp (srcRestOf sb) (tgtRestOf tb)
          (tgtRootName = some tb) srcStart tgtRestP gs numFrames dt
        (if res.times ≠ [] then [OutTrack.rotation tb res.times res.rots] else []) ++
        (if res.poss ≠ [] then [OutTrack.position tb res.times res.poss] else []))).flatten

/-! ### C1 and C3: the V1 pass formulas -/

theorem getD_range_map {α : Type} (f : ℕ → α) (n i : ℕ) (d : α) (hi : i < n) :
    ((List.range n).map f).getD i d = f i := by
  rw [List.getD_eq_getElem _ _ (by simpa using hi)]
  simp

theorem trackIndex_zero (times : List ℚ) (hnn : ∀ x ∈ times, 0 ≤ x) :
    trackIndex 0 times = 0 := by
  match times with
  | [] => rfl
  | [t0] => rfl
  | t0 :: t1 :: rest =>
    unfold trackIndex
    rw [if_neg]
    exact not_lt.mpr (hnn t1 (List.mem_cons_of_mem _ (List.mem_cons_self _ _)))

theorem trackAlpha_zero (trk : Track) (hhead : trk.times.headD 1 = 0)
    (hnn : ∀ x ∈ trk.times, 0 ≤ x) : trackAlpha trk 0 = 0 := by
  unfold trackAlpha
  rw [trackIndex_zero trk.times hnn]
  rcases htimes : trk.times with _ | ⟨t0, rest⟩
  · rw [htimes] at hhead
    norm_num at hhead
  · rw [htimes] at hhead
    simp only [List.headD_cons] at hhead
    subst hhead
    dsimp only
    simp only [List.getD_cons_zero]
    split
    · rfl
    · simp

/-- C1: per mapped bone and output frame `i`, the V1 rotation equals
`targetRest * sourceRest⁻¹ * sourceAnimSample(t)` (quaternion product in that
order; the sample is the slerped source rotation track value, identity when
the bone has no rotation track).  In particular, when source and target rest
rotations coincide, the frame-0 output is the raw first keyframe of the
source track.  `sourceRest⁻¹` is the mathematical inverse; the code uses the
conjugate (`THREE.invert`), which agrees with it because rest rotations are
unit quaternions (`hUnit`). -/
theorem retarget_rotation_restCorrection (slerpF : QuatQ → QuatQ → ℚ → QuatQ)
    (hs0 : ∀ a b, slerpF a b 0 = a)
    (srcRest tgtRest : QuatQ) (hUnit : srcRest.normSq = 1)
    (grp : TrackGroup) (isRoot : Bool) (srcStart tgtRestP : Vec3) (gs : ℚ)
    (numFrames : ℕ) (dt : ℚ) (i : ℕ) (hi : i < numFrames) :
    ((boneResult slerpF grp (some srcRest) (some tgtRest) isRoot srcStart tgtRestP
        gs numFrames dt).rots.getD i QuatQ.identity
      = (tgtRest.mul srcRest.inv).mul (sourceAnimSample slerpF grp.quat (i * dt))) ∧
    (srcRest = tgtRest → ∀ trk, grp.quat = some trk →
      trk.times.headD 1 = 0 → (∀ x ∈ trk.times, 0 ≤ x) →
      (boneResult slerpF grp (some srcRest) (some tgtRest) isRoot srcStart tgtRestP
          gs numFrames dt).rots.getD 0 QuatQ.identity = quatAt trk.values 0) := by
  have hframe : ∀ j, j < numFrames →
      (boneResult slerpF grp (some srcRest) (some tgtRest) isRoot srcStart tgtRestP
        gs numFrames dt).rots.getD j QuatQ.identity
      = retargetFrameRot slerpF (some srcRest) (some tgtRest) grp.quat (j * dt) := by
    intro j hj
    unfold boneResult
    dsimp only
    rw [getD_range_map _ _ _ _ hj]
  constructor
  · rw [hframe i hi]
    unfold retargetFrameRot
    simp only [Option.getD_some]
    rw [QuatQ.conj_eq_inv_of_unit hUnit]
  · intro heq trk htrk hhead hnn
    rw [hframe 0 (Nat.lt_of_le_of_lt (Nat.zero_le i) hi)]
    unfold retargetFrameRot sourceAnimSample
    rw [htrk]
    simp only [Option.getD_some, Nat.cast_zero, zero_mul]
    unfold sampleQuat
    rw [trackIndex_zero trk.times hnn, trackAlpha_zero trk hhead hnn, hs0]
    rw [← heq, QuatQ.mul_conj_of_unit hUnit, QuatQ.mul_identity_left]

/-- Concrete evaluation of the C1 theorem: identity rest rotations, a
two-keyframe identity rotation track, frame 1 of 2 at 30... (dt = 1/2). -/
theorem retarget_rotation_restCorrection_w :
    (boneResult (fun a _ _ => a)
      ⟨none, some ⟨[0, 1], [0, 0, 0, 1, 0, 0, 0, 1]⟩⟩
      (some QuatQ.identity) (some QuatQ.identity) false Vec3.zero Vec3.zero 1 2
      (1 / 2)).rots.getD 1 QuatQ.identity = QuatQ.identity := by
  have h := (retarget_rotation_restCorrection (fun a _ _ => a) (fun _ _ => rfl)
    QuatQ.identity QuatQ.identity (by norm_num [QuatQ.normSq, QuatQ.identity])
    ⟨none, some ⟨[0, 1], [0, 0, 0, 1, 0, 0, 0, 1]⟩⟩ false
    Vec3.zero Vec3.zero 1 2 (1 / 2) 1 (by norm_num)).1
  rw [h]
  norm_num [sourceAnimSample, sampleQuat, trackIndex, trackAlpha, quatAt, QuatQ.mul,
    QuatQ.inv, QuatQ.conj, QuatQ.smulQ, QuatQ.normSq, QuatQ.identity, List.getD]

/-- C3: position tracks in the worker output.  (a) Only the root target bone
(the first mapping key whose name matches the hips/root/pelvis pattern) can
receive a position track.  (b) When the root's mapped source group carries a
position component, the engine emits for it a position track whose value at
every frame is
`targetRestPosition + (sourcePositionSample - sourcePositionAtFrame0) * globalScale`
componentwise (`sourceStartPos` is the source root track's first keyframe). -/
theorem rootMotion_delta_scaled (slerpF : QuatQ → QuatQ → ℚ → QuatQ)
    (mapping : List (String × String)) (sourceTracks : List (String × TrackGroup))
    (srcRestOf tgtRestOf : String → Option QuatQ) (tgtRestPosOf : String → Option Vec3)
    (gs : ℚ) (numFrames : ℕ) (dt : ℚ) (tb sb : String) (grp : TrackGroup) (ptrk : Track)
    (hroot : (mapping.map Prod.fst).find? isRootName = some tb)
    (hmem : (tb, sb) ∈ mapping) (hsb : sb ≠ "")
    (hgrp : sourceTracks.lookup sb = some grp) (hpos : grp.pos = some ptrk)
    (hn : numFrames ≠ 0) :
    (∀ n ts vs, OutTrack.position n ts vs ∈
        runRetarget slerpF mapping sourceTracks srcRestOf tgtRestOf tgtRestPosOf gs
          numFrames dt → n = tb) ∧
    OutTrack.position tb ((List.range numFrames).map (fun i : ℕ => (i : ℚ) * dt))
      ((List.range numFrames).map (fun i : ℕ =>
        (⟨((tgtRestPosOf tb).getD Vec3.zero).x
            + ((sampleVec ptrk ((i : ℚ) * dt)).x - (sourceStartPos sourceTracks).x) * gs,
          ((tgtRestPosOf tb).getD Vec3.zero).y
            + ((sampleVec ptrk ((i : ℚ) * dt)).y - (sourceStartPos sourceTracks).y) * gs,
          ((tgtRestPosOf tb).getD Vec3.zero).z
            + ((sampleVec ptrk ((i : ℚ) * dt)).z - (sourceStartPos sourceTracks).z) * gs⟩
          : Vec3)))
      ∈ runRetarget slerpF mapping sourceTracks srcRestOf tgtRestOf tgtRestPosOf gs
          numFrames dt := by
  constructor
  · intro n ts vs hmem'
    unfold runRetarget at hmem'
    rw [List.mem_flatten] at hmem'
    obtain ⟨l, hl, hin⟩ := hmem'
    obtain ⟨⟨tb', sb'⟩, hmm', rfl⟩ := List.mem_map.mp hl
    dsimp only at hin
    by_cases hsb' : sb' = ""
    · rw [if_pos hsb'] at hin
      simp at hin
    · rw [if_neg hsb'] at hin
      cases hl' : sourceTracks.lookup sb' with
      | none =>
        rw [hl'] at hin
        simp at hin
      | some grp' =>
        rw [hl'] at hin
        dsimp only at hin
        rcases List.mem_append.mp hin with hA | hB
        · split_ifs at hA with hc
          · simp at hA
          · simp at hA
        · split_ifs at hB with hc
          · rw [List.mem_singleton] at hB
            injection hB with hname hts hvs
            subst hname
            have hdec : decide ((mapping.map Prod.fst).find? isRootName = some n) = true := by
              by_contra hfalse
              have hb : decide ((mapping.map Prod.fst).find? isRootName = some n) = false :=
                Bool.eq_false_iff.mpr hfalse
              apply hc
              unfold boneResult
              dsimp only
              rw [hb]
              cases grp'.pos <;> rfl
            have := of_decide_eq_true hdec
            rw [hroot] at this
            exact (Option.some.inj this).symm
          · simp at hB
  · have hstep : ∀ (f : String × String → List OutTrack) (x : OutTrack),
        x ∈ f (tb, sb) → x ∈ (mapping.map f).flatten := by
      intro f x hx
      exact List.mem_flatten.mpr ⟨f (tb, sb), List.mem_map_of_mem f hmem, hx⟩
    unfold runRetarget
    apply hstep
    dsimp only
    rw [if_neg hsb, hgrp]
    dsimp only
    have hdec : decide ((mapping.map Prod.fst).find? isRootName = some tb) = true := by
      rw [hroot]
      exact decide_eq_true rfl
    have hposs : (boneResult slerpF grp (srcRestOf sb) (tgtRestOf tb)
        (decide ((mapping.map Prod.fst).find? isRootName = some tb))
        (sourceStartPos sourceTracks)
        ((((mapping.map Prod.fst).find? isRootName).bind tgtRestPosOf).getD Vec3.zero)
        gs numFrames dt).poss
        = (List.range numFrames).map (fun i : ℕ =>
            retargetFramePos ptrk (sourceStartPos sourceTracks)
              ((((mapping.map Prod.fst).find? isRootName).bind tgtRestPosOf).getD Vec3.zero)
              gs ((i : ℚ) * dt)) := by
      unfold boneResult
      dsimp only
      rw [hpos, hdec]
    have hne : (boneResult slerpF grp (srcRestOf sb) (tgtRestOf tb)
        (decide ((mapping.map Prod.fst).find? isRootName = some tb))
        (sourceStartPos sourceTracks)
        ((((mapping.map Prod.fst).find? isRootName).bind tgtRestPosOf).getD Vec3.zero)
        gs numFrames dt).poss ≠ [] := by
      rw [hposs]
      simp [List.range_eq_nil, hn]
    refine List.mem_append_right _ ?_
    rw [if_pos hne, List.mem_singleton]
    rw [hposs, hroot]
    rfl

/-- Concrete evaluation of the C3 theorem: a one-frame run with a mapped
`Hips` root, target rest position `(0, 1, 0)`, global scale 2, and a source
position track starting at the origin. -/
theorem rootMotion_delta_scaled_w :
    OutTrack.position "Hips" [0] [⟨0, 1, 0⟩] ∈ runRetarget (fun a _ _ => a)
      [("Hips", "mixHips")]
      [("mixHips", ⟨some ⟨[0, 1], [0, 0, 0, 1, 2, 3]⟩, none⟩)]
      (fun _ => none) (fun _ => none)
      (fun n => if n = "Hips" then some ⟨0, 1, 0⟩ else none) 2 1 1 := by
  have h := (rootMotion_delta_scaled (fun a _ _ => a) [("Hips", "mixHips")]
    [("mixHips", ⟨some ⟨[0, 1], [0, 0, 0, 1, 2, 3]⟩, none⟩)]
    (fun _ => none) (fun _ => none)
    (fun n => if n = "Hips" then some ⟨0, 1, 0⟩ else none) 2 1 1 "Hips" "mixHips"
    ⟨some ⟨[0, 1], [0, 0, 0, 1, 2, 3]⟩, none⟩ ⟨[0, 1], [0, 0, 0, 1, 2, 3]⟩
    (by decide) (by simp) (by decide) (by decide) rfl (by decide)).2
  have hstart : sourceStartPos [("mixHips",
      (⟨some ⟨[0, 1], [0, 0, 0, 1, 2, 3]⟩, none⟩ : TrackGroup))] = (⟨0, 0, 0⟩ : Vec3) := by
    decide
  have hr1 : List.range 1 = [0] := by decide
  rw [hr1] at h
  simp only [List.map_cons, List.map_nil, Nat.cast_zero, zero_mul, hstart] at h
  norm_num [sampleVec, trackAlpha, trackIndex, vecAt, List.getD] at h
  convert h using 2

/-! ## Two-bone CCD IK solver (`solveTwoBoneIK` of the retarget worker)

The claim about this solver is geometric, so it is embedded over `ℝ`.

State representation.  The worker stores the chain in a `THREE` scene graph
and reads world positions via `updateMatrixWorld`; every bone has unit scale
and the solver writes `δ * worldRotation` back through the parent's inverse
world rotation (`parentRot.invert().multiply(newWorldRot)`), so — for unit
quaternions, which all skeleton and solver rotations are — each bone update
acts on the world positions of the bone's descendants as the rigid rotation
`p ↦ B + δ(p - B)` about the bone's (unchanged) world position `B`, and
leaves everything else fixed.  The embedding tracks exactly that world-space
state: the middle and effector world positions (the root's position never
moves).  Each inner step recomputes the effector position, as the source does
(`effector.getWorldPosition` inside the loop).

`THREE.Quaternion.slerp(identityQuaternion, 0.5)` on a unit quaternion with
`0 ≤ w < 0.9` is the half-angle rotation about the same axis, whose exact
closed form is `normalize(q + 1)`; the damping step is embedded by that
closed form. -/

/-- 3-vector over `ℝ`. -/
@[ext]
structure VecR where
  x : ℝ
  y : ℝ
  z : ℝ

namespace VecR

def add (a b : VecR) : VecR := ⟨a.x + b.x, a.y + b.y, a.z + b.z⟩

def sub (a b : VecR) : VecR := ⟨a.x - b.x, a.y - b.y, a.z - b.z⟩

def smul (s : ℝ) (a : VecR) : VecR := ⟨s * a.x, s * a.y, s * a.z⟩

def dot (a b : VecR) : ℝ := a.x * b.x + a.y * b.y + a.z * b.z

def cross (a b : VecR) : VecR :=
  ⟨a.y * b.z - a.z * b.y, a.z * b.x - a.x * b.z, a.x * b.y - a.y * b.x⟩

def normSq (a : VecR) : ℝ := a.x * a.x + a.y * a.y + a.z * a.z

noncomputable def norm (a : VecR) : ℝ := Real.sqrt a.normSq

def zero : VecR := ⟨0, 0, 0⟩

/-- `THREE.Vector3.normalize`: `divideScalar(length || 1)` — the zero vector
stays the zero vector. -/
noncomputable def vnormalize (a : VecR) : VecR :=
  if a.norm = 0 then a else smul (1 / a.norm) a

theorem normSq_nonneg (a : VecR) : 0 ≤ a.normSq := by
  unfold normSq
  nlinarith [mul_self_nonneg a.x, mul_self_nonneg a.y, mul_self_nonneg a.z]

theorem normSq_eq_zero_iff (a : VecR) : a.normSq = 0 ↔ a = zero := by
  unfold normSq zero
  constructor
  · intro h
    obtain ⟨ax, ay, az⟩ := a
    simp only at h
    have hx : ax = 0 := by nlinarith
    have hy : ay = 0 := by nlinarith
    have hz : az = 0 := by nlinarith
    simp [hx, hy, hz]
  · intro h
    rw [h]
    ring

theorem norm_nonneg (a : VecR) : 0 ≤ a.norm := Real.sqrt_nonneg _

theorem norm_sq (a : VecR) : a.norm * a.norm = a.normSq :=
  Real.mul_self_sqrt (normSq_nonneg a)

theorem norm_eq_zero_iff (a : VecR) : a.norm = 0 ↔ a = zero := by
  unfold norm
  rw [Real.sqrt_eq_zero (normSq_nonneg a)]
  exact normSq_eq_zero_iff a

theorem normSq_smul (s : ℝ) (a : VecR) : (smul s a).normSq = s ^ 2 * a.normSq := by
  unfold smul normSq
  ring

theorem vnormalize_normSq {a : VecR} (h : a ≠ zero) :
    (vnormalize a).normSq = 1 := by
  unfold vnormalize
  rw [if_neg (fun h0 => h ((norm_eq_zero_iff a).mp h0))]
  rw [normSq_smul]
  have hn : a.norm ≠ 0 := fun h0 => h ((norm_eq_zero_iff a).mp h0)
  have := norm_sq a
  field_simp
  nlinarith [norm_sq a]

theorem dot_comm (a b : VecR) : dot a b = dot b a := by unfold dot; ring

theorem dot_smul_left (s : ℝ) (a b : VecR) : dot (smul s a) b = s * dot a b := by
  unfold dot smul; ring

theorem dot_smul_right (s : ℝ) (a b : VecR) : dot a (smul s b) = s * dot a b := by
  unfold dot smul; ring

theorem cross_smul_left (s : ℝ) (a b : VecR) : cross (smul s a) b = smul s (cross a b) := by
  unfold cross smul
  ext <;> dsimp <;> ring

theorem dot_cross_left (a b : VecR) : dot (cross a b) a = 0 := by
  unfold dot cross; ring

theorem dot_cross_right (a b : VecR) : dot (cross a b) b = 0 := by
  unfold dot cross; ring

/-- Lagrange's identity. -/
theorem normSq_cross (a b : VecR) :
    (cross a b).normSq = a.normSq * b.normSq - (dot a b) ^ 2 := by
  unfold cross normSq dot; ring

/-- Grassmann expansion `(u × v) × u = (u·u) v − (u·v) u`. -/
theorem cross_cross_self (u v : VecR) :
    cross (cross u v) u = (smul (dot u u) v).sub (smul (dot u v) u) := by
  unfold cross smul sub dot
  ext <;> dsimp <;> ring

/-- Cauchy–Schwarz as a squared inequality. -/
theorem dot_sq_le (a b : VecR) : (dot a b) ^ 2 ≤ a.normSq * b.normSq := by
  have := normSq_nonneg (cross a b)
  rw [normSq_cross] at this
  linarith

/-- The lower Cauchy–Schwarz bound with a square root. -/
theorem dot_ge_neg_sqrt (a b : VecR) :
    -Real.sqrt (a.normSq * b.normSq) ≤ dot a b := by
  have h1 : |dot a b| ≤ Real.sqrt (a.normSq * b.normSq) := by
    rw [← Real.sqrt_sq_eq_abs]
    exact Real.sqrt_le_sqrt (dot_sq_le a b)
  have := neg_abs_le (dot a b)
  linarith

end VecR

/-- Quaternion over `ℝ`. -/
@[ext]
structure QuatR where
  x : ℝ
  y : ℝ
  z : ℝ
  w : ℝ

namespace QuatR

/-- Hamilton product (`THREE.Quaternion.multiplyQuaternions`). -/
def mul (a b : QuatR) : QuatR :=
  ⟨a.x * b.w + a.w * b.x + a.y * b.z - a.z * b.y,
   a.y * b.w + a.w * b.y + a.z * b.x - a.x * b.z,
   a.z * b.w + a.w * b.z + a.x * b.y - a.y * b.x,
   a.w * b.w - a.x * b.x - a.y * b.y - a.z * b.z⟩

def conj (q : QuatR) : QuatR := ⟨-q.x, -q.y, -q.z, q.w⟩

def identity : QuatR := ⟨0, 0, 0, 1⟩

def normSq (q : QuatR) : ℝ := q.x * q.x + q.y * q.y + q.z * q.z + q.w * q.w

noncomputable def qnorm (q : QuatR) : ℝ := Real.sqrt q.normSq

def smulQ (s : ℝ) (q : QuatR) : QuatR := ⟨s * q.x, s * q.y, s * q.z, s * q.w⟩

/-- Vector (imaginary) part. -/
def vec (q : QuatR) : VecR := ⟨q.x, q.y, q.z⟩

/-- Pure quaternion from a vector. -/
def ofVec (v : VecR) : QuatR := ⟨v.x, v.y, v.z, 0⟩

/-- `THREE.Quaternion.normalize`: zero length yields the identity, otherwise
divide by the length. -/
noncomputable def qnormalize (q : QuatR) : QuatR :=
  if q.qnorm = 0 then identity else smulQ (1 / q.qnorm) q

/-- The rotation action `v ↦ im (q · v · q̄)` — the semantics of a unit
quaternion in `THREE`'s world-matrix composition. -/
def rotate (q : QuatR) (v : VecR) : VecR := ((q.mul (ofVec v)).mul q.conj).vec

theorem quatNormSq_nonneg (q : QuatR) : 0 ≤ q.normSq := by
  unfold normSq
  nlinarith [mul_self_nonneg q.x, mul_self_nonneg q.y, mul_self_nonneg q.z,
    mul_self_nonneg q.w]

theorem qnorm_sq (q : QuatR) : q.qnorm * q.qnorm = q.normSq :=
  Real.mul_self_sqrt (quatNormSq_nonneg q)

theorem normSq_smulQ (s : ℝ) (q : QuatR) : (smulQ s q).normSq = s ^ 2 * q.normSq := by
  unfold smulQ normSq
  ring

theorem normSq_identity : identity.normSq = 1 := by
  unfold identity normSq
  norm_num

/-- `qnormalize` always returns a unit quaternion (the zero-length branch
returns the identity). -/
theorem qnormalize_normSq (q : QuatR) : (qnormalize q).normSq = 1 := by
  unfold qnormalize
  split_ifs with h
  · exact normSq_identity
  · rw [normSq_smulQ]
    have hq : q.normSq ≠ 0 := by
      intro h0
      exact h (by unfold qnorm; rw [h0]; exact Real.sqrt_zero)
    have := qnorm_sq q
    field_simp
    nlinarith [qnorm_sq q]

/-- Multiplicativity of the quaternion norm. -/
theorem normSq_mul (a b : QuatR) : (mul a b).normSq = a.normSq * b.normSq := by
  unfold mul normSq
  ring

/-- Norm preservation of the rotation action:
`‖q v q̄‖² = ‖q‖⁴ ‖v‖²` and the real part of `q v q̄` vanishes, so the vector
part alone carries the norm when `q` is a unit quaternion. -/
theorem normSq_rotate (q : QuatR) (v : VecR) :
    (rotate q v).normSq = q.normSq ^ 2 * v.normSq := by
  obtain ⟨qx, qy, qz, qw⟩ := q
  obtain ⟨vx, vy, vz⟩ := v
  unfold rotate mul conj ofVec vec VecR.normSq normSq
  dsimp only
  ring

theorem normSq_rotate_of_unit {q : QuatR} (h : q.normSq = 1) (v : VecR) :
    (rotate q v).normSq = v.normSq := by
  rw [normSq_rotate, h]
  ring

/-- Closed form of the rotation action: for `q = (a, w)`,
`rotate q v = (w² − ‖a‖²) v + 2 (a·v) a + 2 w (a × v)` — an exact polynomial
identity, no unit assumption needed. -/
theorem rotate_eq (q : QuatR) (v : VecR) :
    rotate q v = ((VecR.smul (q.w ^ 2 - q.vec.normSq) v).add
      (VecR.smul (2 * VecR.dot q.vec v) q.vec)).add
      (VecR.smul (2 * q.w) (VecR.cross q.vec v)) := by
  obtain ⟨qx, qy, qz, qw⟩ := q
  obtain ⟨vx, vy, vz⟩ := v
  unfold rotate mul conj ofVec vec VecR.smul VecR.add VecR.dot VecR.cross VecR.normSq
  ext <;> dsimp <;> ring

theorem rotate_zero (q : QuatR) : rotate q VecR.zero = VecR.zero := by
  unfold rotate mul conj ofVec vec VecR.zero
  ext <;> dsimp <;> ring

theorem rotate_smul (q : QuatR) (s : ℝ) (v : VecR) :
    rotate q (VecR.smul s v) = VecR.smul s (rotate q v) := by
  unfold rotate mul conj ofVec vec VecR.smul
  ext <;> dsimp <;> ring

end QuatR

/-- `Number.EPSILON` (2⁻⁵²), the antiparallel threshold of
`THREE.Quaternion.setFromUnitVectors`. -/
noncomputable def epsR : ℝ := 1 / 2 ^ 52

/-- `THREE.Quaternion.setFromUnitVectors(vFrom, vTo)`: `r = dot + 1`; if `r`
is below `Number.EPSILON`, a 180° rotation about an axis perpendicular to
`vFrom` (choosing components by `|x| > |z|`); otherwise `(vFrom × vTo, r)`;
either way normalized. -/
noncomputable def setFromUnitVectors (vFrom vTo : VecR) : QuatR :=
  let r := VecR.dot vFrom vTo + 1
  if r < epsR then
    if |vFrom.x| > |vFrom.z| then
      QuatR.qnormalize ⟨-vFrom.y, vFrom.x, 0, 0⟩
    else
      QuatR.qnormalize ⟨0, -vFrom.z, vFrom.y, 0⟩
  else
    QuatR.qnormalize
      ⟨(VecR.cross vFrom vTo).x, (VecR.cross vFrom vTo).y, (VecR.cross vFrom vTo).z, r⟩

/-- The solver's damping: `if (rotation.w < 0.9) rotation.slerp(identity, 0.5)`.
For the unit output of `setFromUnitVectors` (which has `0 ≤ w`), THREE's
`slerp` at `t = 0.5` is exactly the half-angle rotation about the same axis,
i.e. `normalize(q + 1)`. -/
noncomputable def dampIfLarge (q : QuatR) : QuatR :=
  if q.w < 9 / 10 then QuatR.qnormalize ⟨q.x, q.y, q.z, q.w + 1⟩ else q

/-- The rotation one CCD bone step applies:
`setFromUnitVectors(normalize(effector - bone), normalize(target - bone))`,
damped. -/
noncomputable def ccdDelta (bonePos effectorPos targetPos : VecR) : QuatR :=
  dampIfLarge (setFromUnitVectors (VecR.vnormalize (effectorPos.sub bonePos))
    (VecR.vnormalize (targetPos.sub bonePos)))

/-- Rigid rotation about a pivot — the effect of writing `δ * worldRot` back
into a bone on the world position of each of its descendants. -/
noncomputable def rotateAbout (pivot : VecR) (q : QuatR) (p : VecR) : VecR :=
  pivot.add (q.rotate (p.sub pivot))

/-- World-space state of the two-bone chain (the root's world position is
fixed and passed separately). -/
structure IKState where
  middle : VecR
  effector : VecR

/-- One iteration of the CCD loop: `for (const bone of chain)` with
`chain = [middle, root]` — first swing the effector about the middle joint,
then swing middle and effector together about the root joint, recomputing the
effector position before each bone as the source does. -/
noncomputable def ikIteration (rootPos targetPos : VecR) (s : IKState) : IKState :=
  let q1 := ccdDelta s.middle s.effector targetPos
  let e1 := rotateAbout s.middle q1 s.effector
  let q2 := ccdDelta rootPos e1 targetPos
  { middle := rotateAbout rootPos q2 s.middle,
    effector := rotateAbout rootPos q2 e1 }

/-- `Vector3.distanceTo`. -/
noncomputable def distR (a b : VecR) : ℝ := Real.sqrt (a.sub b).normSq

/-- `maxIter` of `solveTwoBoneIK`. -/
def ikMaxIter : ℕ := 15

/-- `tolerance` of `solveTwoBoneIK`. -/
noncomputable def ikTolerance : ℝ := 1 / 10000

/-- The iteration loop with its early tolerance exit. -/
noncomputable def ikLoop (rootPos targetPos : VecR) : ℕ → IKState → IKState
  | 0, s => s
  | n + 1, s =>
    if distR s.effector targetPos < ikTolerance then s
    else ikLoop rootPos targetPos n (ikIteration rootPos targetPos s)

/-- Embedding of `solveTwoBoneIK` on the world-space chain state. -/
noncomputable def solveTwoBoneIK (rootPos middlePos effectorPos targetPos : VecR) :
    IKState :=
  ikLoop rootPos targetPos ikMaxIter ⟨middlePos, effectorPos⟩

/-! ### Geometry of one CCD bone step -/

theorem setFromUnitVectors_normSq (vFrom vTo : VecR) :
    (setFromUnitVectors vFrom vTo).normSq = 1 := by
  unfold setFromUnitVectors
  dsimp only
  split_ifs <;> exact QuatR.qnormalize_normSq _

theorem dampIfLarge_normSq {q : QuatR} (h : q.normSq = 1) :
    (dampIfLarge q).normSq = 1 := by
  unfold dampIfLarge
  split_ifs
  · exact QuatR.qnormalize_normSq _
  · exact h

theorem ccdDelta_normSq (bonePos effectorPos targetPos : VecR) :
    (ccdDelta bonePos effectorPos targetPos).normSq = 1 :=
  dampIfLarge_normSq (setFromUnitVectors_normSq _ _)

theorem VecR.normSq_sub (a b : VecR) :
    (a.sub b).normSq = a.normSq - 2 * VecR.dot a b + b.normSq := by
  unfold VecR.sub VecR.normSq VecR.dot
  ring

theorem VecR.dot_add_left (a b c : VecR) :
    VecR.dot (a.add b) c = VecR.dot a c + VecR.dot b c := by
  unfold VecR.add VecR.dot
  ring

theorem VecR.dot_sub_right (a b c : VecR) :
    VecR.dot a (b.sub c) = VecR.dot a b - VecR.dot a c := by
  unfold VecR.sub VecR.dot
  ring

theorem VecR.smul_smul (s t : ℝ) (a : VecR) :
    VecR.smul s (VecR.smul t a) = VecR.smul (s * t) a := by
  unfold VecR.smul
  ext <;> dsimp <;> ring

theorem VecR.smul_norm_vnormalize {a : VecR} (h : a ≠ VecR.zero) :
    VecR.smul a.norm (VecR.vnormalize a) = a := by
  unfold VecR.vnormalize
  have hn : a.norm ≠ 0 := fun h0 => h ((VecR.norm_eq_zero_iff a).mp h0)
  rw [if_neg hn, VecR.smul_smul]
  have : a.norm * (1 / a.norm) = 1 := by field_simp
  rw [this]
  unfold VecR.smul
  ext <;> dsimp <;> ring

theorem QuatR.vec_smulQ (s : ℝ) (q : QuatR) :
    (QuatR.smulQ s q).vec = VecR.smul s q.vec := by
  unfold QuatR.smulQ QuatR.vec VecR.smul
  ext <;> dsimp

theorem epsR_pos : 0 < epsR := by unfold epsR; positivity

/-- A unit quaternion with zero real part and axis perpendicular to `u`,
damped (half-angle: 90° about that axis), rotates `u` to `axis × u`. -/
theorem damp_flip_rotate_dot (u v b : VecR) (hbu : VecR.dot b u = 0)
    (hbSq : b.normSq = 1) :
    VecR.dot (QuatR.rotate (dampIfLarge ⟨b.x, b.y, b.z, 0⟩) u) v
      = VecR.dot (VecR.cross b u) v := by
  unfold dampIfLarge
  rw [if_pos (by norm_num : ((⟨b.x, b.y, b.z, 0⟩ : QuatR)).w < 9 / 10)]
  have hnz : QuatR.normSq ⟨b.x, b.y, b.z, (0 : ℝ) + 1⟩ = 2 := by
    unfold VecR.normSq at hbSq
    unfold QuatR.normSq
    dsimp only
    nlinarith [hbSq]
  have hk2 : QuatR.qnorm ⟨b.x, b.y, b.z, (0 : ℝ) + 1⟩
      * QuatR.qnorm ⟨b.x, b.y, b.z, (0 : ℝ) + 1⟩ = 2 := by
    have := QuatR.qnorm_sq (⟨b.x, b.y, b.z, (0 : ℝ) + 1⟩ : QuatR)
    rw [hnz] at this
    exact this
  have hkpos : 0 < QuatR.qnorm ⟨b.x, b.y, b.z, (0 : ℝ) + 1⟩ := by
    unfold QuatR.qnorm
    rw [hnz]
    norm_num
  set k := QuatR.qnorm ⟨b.x, b.y, b.z, (0 : ℝ) + 1⟩ with hk
  have hq2 : QuatR.qnormalize ⟨b.x, b.y, b.z, (0 : ℝ) + 1⟩
      = QuatR.smulQ (1 / k) ⟨b.x, b.y, b.z, (0 : ℝ) + 1⟩ := by
    unfold QuatR.qnormalize
    rw [if_neg (ne_of_gt hkpos)]
  dsimp only
  rw [hq2]
  have hvec : (QuatR.smulQ (1 / k) ⟨b.x, b.y, b.z, (0 : ℝ) + 1⟩).vec
      = VecR.smul (1 / k) b := rfl
  have hw2 : (QuatR.smulQ (1 / k) ⟨b.x, b.y, b.z, (0 : ℝ) + 1⟩).w
      = 1 / k * (0 + 1) := rfl
  rw [QuatR.rotate_eq, VecR.dot_add_left, VecR.dot_add_left]
  rw [hvec, hw2, VecR.cross_smul_left]
  simp only [VecR.dot_smul_left, VecR.normSq_smul, hbSq, hbu]
  have hkne : k ≠ 0 := ne_of_gt hkpos
  field_simp
  linear_combination (-(VecR.dot (VecR.cross b u) v)) * hk2

/-- The antiparallel branch of one damped CCD step: a 90°-damped 180° flip
about an axis `a` perpendicular to `u` does not decrease the inner product
with `v`, because `u · v` is within `Number.EPSILON` of `-1`. -/
theorem antiparallel_step_dot_ge (u v a : VecR) (hu : u.normSq = 1)
    (hv : v.normSq = 1) (hr : VecR.dot u v + 1 < epsR)
    (hau : VecR.dot a u = 0) (hapos : a.normSq ≠ 0) :
    VecR.dot u v ≤
      VecR.dot (QuatR.rotate (dampIfLarge
        (QuatR.qnormalize ⟨a.x, a.y, a.z, 0⟩)) u) v := by
  set c := VecR.dot u v with hc
  have hinSq : QuatR.normSq ⟨a.x, a.y, a.z, 0⟩ = a.normSq := by
    unfold QuatR.normSq VecR.normSq
    dsimp only
    ring
  have hnpos : 0 < QuatR.qnorm ⟨a.x, a.y, a.z, 0⟩ := by
    unfold QuatR.qnorm
    rw [hinSq]
    exact Real.sqrt_pos.mpr (lt_of_le_of_ne (VecR.normSq_nonneg a) (Ne.symm hapos))
  set n := QuatR.qnorm ⟨a.x, a.y, a.z, 0⟩ with hn
  have hn2 : n * n = a.normSq := by
    rw [hn]
    have := QuatR.qnorm_sq (⟨a.x, a.y, a.z, 0⟩ : QuatR)
    rw [hinSq] at this
    exact this
  have hnne : n ≠ 0 := ne_of_gt hnpos
  set b := VecR.smul (1 / n) a with hb
  have hbu : VecR.dot b u = 0 := by
    rw [hb, VecR.dot_smul_left, hau, mul_zero]
  have hbSq : b.normSq = 1 := by
    rw [hb, VecR.normSq_smul]
    field_simp
    nlinarith [hn2]
  have happ : QuatR.qnormalize ⟨a.x, a.y, a.z, 0⟩ = ⟨b.x, b.y, b.z, 0⟩ := by
    unfold QuatR.qnormalize
    rw [if_neg (ne_of_gt hnpos)]
    rw [hb]
    show QuatR.smulQ (1 / n) ⟨a.x, a.y, a.z, 0⟩ = _
    unfold QuatR.smulQ VecR.smul
    ext <;> dsimp <;> ring
  rw [happ, damp_flip_rotate_dot u v b hbu hbSq]
  -- bound (cross b u) · v from below by -sqrt(1 - c²), and that by c
  have hcrossSq : (VecR.cross b u).normSq = 1 := by
    rw [VecR.normSq_cross, hbSq, hu, hbu]
    norm_num
  have hperp : VecR.dot (VecR.cross b u) u = 0 := VecR.dot_cross_right b u
  have hsplit : VecR.dot (VecR.cross b u) v
      = VecR.dot (VecR.cross b u) (v.sub (VecR.smul c u)) := by
    rw [VecR.dot_sub_right, VecR.dot_smul_right, hperp, mul_zero, sub_zero]
  have hwSq : (v.sub (VecR.smul c u)).normSq = 1 - c ^ 2 := by
    rw [VecR.normSq_sub, VecR.dot_smul_right, VecR.normSq_smul, hu, hv]
    rw [show VecR.dot v u = c from (VecR.dot_comm v u).trans hc.symm]
    ring
  have hlow : -Real.sqrt (1 - c ^ 2) ≤ VecR.dot (VecR.cross b u) v := by
    rw [hsplit]
    have h := VecR.dot_ge_neg_sqrt (VecR.cross b u) (v.sub (VecR.smul c u))
    rw [hcrossSq, hwSq, one_mul] at h
    exact h
  have heps_le : epsR ≤ 1 / 2 := by unfold epsR; norm_num
  have hcneg : c < 0 := by linarith
  have hepsval : epsR = 1 / 2 ^ 52 := rfl
  have hcsq : 1 - c ^ 2 ≤ c ^ 2 := by
    rw [hepsval] at hr
    nlinarith [sq_nonneg (c + 1)]
  have hsqrt_le : Real.sqrt (1 - c ^ 2) ≤ -c := by
    calc Real.sqrt (1 - c ^ 2) ≤ Real.sqrt (c ^ 2) := Real.sqrt_le_sqrt hcsq
    _ = |c| := Real.sqrt_sq_eq_abs c
    _ = -c := abs_of_neg hcneg
  linarith

/-- For a quaternion whose vector part is a multiple of `u × v`, the inner
product of the rotated `u` with `v` in closed form — an exact polynomial
identity. -/
theorem dot_rotate_scaled_cross (u v g : VecR) (hg : g = VecR.cross u v)
    (s w : ℝ) :
    VecR.dot (QuatR.rotate ⟨s * g.x, s * g.y, s * g.z, w⟩ u) v
      = (w ^ 2 - s ^ 2 * g.normSq) * VecR.dot u v
        + 2 * w * s * (u.normSq * v.normSq - (VecR.dot u v) ^ 2) := by
  subst hg
  unfold QuatR.rotate QuatR.mul QuatR.conj QuatR.ofVec QuatR.vec VecR.cross
    VecR.dot VecR.normSq
  dsimp only
  ring

/-- The main branch of one damped CCD step (`r = u·v + 1` at least
`Number.EPSILON`): rotating `u` by the damped `setFromUnitVectors`
quaternion does not decrease the inner product with `v`. -/
theorem main_step_dot_ge (u v : VecR) (hu : u.normSq = 1) (hv : v.normSq = 1)
    (hr : ¬ VecR.dot u v + 1 < epsR) :
    VecR.dot u v ≤
      VecR.dot (QuatR.rotate (dampIfLarge (QuatR.qnormalize
        ⟨(VecR.cross u v).x, (VecR.cross u v).y, (VecR.cross u v).z,
          VecR.dot u v + 1⟩)) u) v := by
  set g := VecR.cross u v with hg
  set c := VecR.dot u v with hc
  have hrpos : 0 < c + 1 := lt_of_lt_of_le epsR_pos (not_lt.mp hr)
  have hc1 : c ≤ 1 := by nlinarith [VecR.dot_sq_le u v, hu, hv, hc]
  have hgSq : g.normSq = 1 - c ^ 2 := by
    rw [hg, VecR.normSq_cross, hu, hv, ← hc]
    ring
  have hgSq' : g.x * g.x + g.y * g.y + g.z * g.z = 1 - c ^ 2 := hgSq
  have hpSq : QuatR.normSq ⟨g.x, g.y, g.z, c + 1⟩ = 2 * (c + 1) := by
    unfold QuatR.normSq
    dsimp only
    linear_combination hgSq'
  have hk0sq : QuatR.qnorm ⟨g.x, g.y, g.z, c + 1⟩
      * QuatR.qnorm ⟨g.x, g.y, g.z, c + 1⟩ = 2 * (c + 1) := by
    have := QuatR.qnorm_sq (⟨g.x, g.y, g.z, c + 1⟩ : QuatR)
    rw [hpSq] at this
    exact this
  have hk0pos : 0 < QuatR.qnorm ⟨g.x, g.y, g.z, c + 1⟩ := by
    unfold QuatR.qnorm
    rw [hpSq]
    exact Real.sqrt_pos.mpr (by linarith)
  set k0 := QuatR.qnorm ⟨g.x, g.y, g.z, c + 1⟩ with hk0
  have hqn : QuatR.qnormalize ⟨g.x, g.y, g.z, c + 1⟩
      = QuatR.smulQ (1 / k0) ⟨g.x, g.y, g.z, c + 1⟩ := by
    unfold QuatR.qnormalize
    rw [← hk0, if_neg (ne_of_gt hk0pos)]
  rw [hqn]
  unfold dampIfLarge
  split_ifs with hdamp
  · -- damped: normalize (q + 1), half-angle rotation
    have hp2 : (⟨(QuatR.smulQ (1 / k0) ⟨g.x, g.y, g.z, c + 1⟩).x,
        (QuatR.smulQ (1 / k0) ⟨g.x, g.y, g.z, c + 1⟩).y,
        (QuatR.smulQ (1 / k0) ⟨g.x, g.y, g.z, c + 1⟩).z,
        (QuatR.smulQ (1 / k0) ⟨g.x, g.y, g.z, c + 1⟩).w + 1⟩ : QuatR)
        = ⟨1 / k0 * g.x, 1 / k0 * g.y, 1 / k0 * g.z, 1 / k0 * (c + 1) + 1⟩ :=
      rfl
    rw [hp2]
    have hk0ne : k0 ≠ 0 := ne_of_gt hk0pos
    have hp2Sq : QuatR.normSq
        ⟨1 / k0 * g.x, 1 / k0 * g.y, 1 / k0 * g.z, 1 / k0 * (c + 1) + 1⟩
        = 2 + k0 := by
      unfold QuatR.normSq
      dsimp only
      field_simp
      linear_combination hgSq' - (1 + k0) * hk0sq
    have hksq : QuatR.qnorm
        ⟨1 / k0 * g.x, 1 / k0 * g.y, 1 / k0 * g.z, 1 / k0 * (c + 1) + 1⟩
        * QuatR.qnorm
        ⟨1 / k0 * g.x, 1 / k0 * g.y, 1 / k0 * g.z, 1 / k0 * (c + 1) + 1⟩
        = 2 + k0 := by
      have := QuatR.qnorm_sq (⟨1 / k0 * g.x, 1 / k0 * g.y, 1 / k0 * g.z,
        1 / k0 * (c + 1) + 1⟩ : QuatR)
      rw [hp2Sq] at this
      exact this
    have hkpos : 0 < QuatR.qnorm
        ⟨1 / k0 * g.x, 1 / k0 * g.y, 1 / k0 * g.z, 1 / k0 * (c + 1) + 1⟩ := by
      unfold QuatR.qnorm
      rw [hp2Sq]
      exact Real.sqrt_pos.mpr (by linarith)
    set k := QuatR.qnorm
      ⟨1 / k0 * g.x, 1 / k0 * g.y, 1 / k0 * g.z, 1 / k0 * (c + 1) + 1⟩ with hk
    have hkne : k ≠ 0 := ne_of_gt hkpos
    have hqn2 : QuatR.qnormalize
        ⟨1 / k0 * g.x, 1 / k0 * g.y, 1 / k0 * g.z, 1 / k0 * (c + 1) + 1⟩
        = QuatR.smulQ (1 / k)
          ⟨1 / k0 * g.x, 1 / k0 * g.y, 1 / k0 * g.z, 1 / k0 * (c + 1) + 1⟩ := by
      unfold QuatR.qnormalize
      rw [← hk, if_neg hkne]
    rw [hqn2]
    have hform : QuatR.smulQ (1 / k)
        ⟨1 / k0 * g.x, 1 / k0 * g.y, 1 / k0 * g.z, 1 / k0 * (c + 1) + 1⟩
        = ⟨1 / k * (1 / k0) * g.x, 1 / k * (1 / k0) * g.y,
            1 / k * (1 / k0) * g.z, 1 / k * (1 / k0 * (c + 1) + 1)⟩ := by
      unfold QuatR.smulQ
      ext <;> dsimp only <;> ring
    rw [hform,
      dot_rotate_scaled_cross u v g hg (1 / k * (1 / k0))
        (1 / k * (1 / k0 * (c + 1) + 1)),
      hu, hv, ← hc, hgSq]
    have hx : (0 : ℝ) < k * k * (k0 * k0) :=
      mul_pos (mul_pos hkpos hkpos) (mul_pos hk0pos hk0pos)
    rw [← mul_le_mul_right hx]
    have hstep1 : ((1 / k * (1 / k0 * (c + 1) + 1)) ^ 2
          - (1 / k * (1 / k0)) ^ 2 * (1 - c ^ 2)) * c
          + 2 * (1 / k * (1 / k0 * (c + 1) + 1)) * (1 / k * (1 / k0))
            * (1 * 1 - c ^ 2) = (c * ((c + 1 + k0) ^ 2 - (1 - c ^ 2))
          + 2 * (c + 1 + k0) * (1 - c ^ 2)) / (k * k * (k0 * k0)) := by
      field_simp
      ring
    rw [hstep1, div_mul_cancel₀ _ (ne_of_gt hx)]
    have hN : c * ((c + 1 + k0) ^ 2 - (1 - c ^ 2))
        + 2 * (c + 1 + k0) * (1 - c ^ 2) = 2 * (c + 1) * (c + 1 + k0) := by
      linear_combination c * hk0sq
    rw [hN]
    have hLHS : c * (k * k * (k0 * k0)) = c * ((2 + k0) * (2 * (c + 1))) := by
      rw [hksq, hk0sq]
    rw [hLHS]
    nlinarith [mul_nonneg (mul_nonneg (by linarith : (0 : ℝ) ≤ 1 - c)
      (by linarith : (0 : ℝ) ≤ 1 + k0)) (le_of_lt hrpos)]
  · -- no damping: the rotation carries u exactly onto v
    have hformA : QuatR.smulQ (1 / k0) ⟨g.x, g.y, g.z, c + 1⟩
        = ⟨1 / k0 * g.x, 1 / k0 * g.y, 1 / k0 * g.z, 1 / k0 * (c + 1)⟩ :=
      rfl
    rw [hformA,
      dot_rotate_scaled_cross u v g hg (1 / k0) (1 / k0 * (c + 1)),
      hu, hv, ← hc, hgSq]
    have hk0ne : k0 ≠ 0 := ne_of_gt hk0pos
    have hx : (0 : ℝ) < k0 * k0 := mul_pos hk0pos hk0pos
    rw [← mul_le_mul_right hx]
    have hstep1 : ((1 / k0 * (c + 1)) ^ 2 - (1 / k0) ^ 2 * (1 - c ^ 2)) * c
          + 2 * (1 / k0 * (c + 1)) * (1 / k0) * (1 * 1 - c ^ 2)
        = (c * ((c + 1) ^ 2 - (1 - c ^ 2)) + 2 * (c + 1) * (1 - c ^ 2))
          / (k0 * k0) := by
      field_simp
      ring
    rw [hstep1, div_mul_cancel₀ _ (ne_of_gt hx)]
    have hNA : c * ((c + 1) ^ 2 - (1 - c ^ 2)) + 2 * (c + 1) * (1 - c ^ 2)
        = 2 * (c + 1) := by
      ring
    rw [hNA, hk0sq]
    nlinarith [mul_nonneg (by linarith : (0 : ℝ) ≤ 1 - c) (le_of_lt hrpos)]

theorem VecR.dot_zero_right (a : VecR) : VecR.dot a VecR.zero = 0 := by
  unfold VecR.dot VecR.zero
  ring

/-- One damped CCD bone rotation never decreases the inner product of the
(unit) effector direction with the (unit) target direction. -/
theorem dampedDelta_dot_ge (u v : VecR) (hu : u.normSq = 1)
    (hv : v.normSq = 1) :
    VecR.dot u v ≤
      VecR.dot (QuatR.rotate (dampIfLarge (setFromUnitVectors u v)) u) v := by
  unfold setFromUnitVectors
  dsimp only
  split_ifs with h1 h2
  · -- antiparallel, axis (-y, x, 0)
    have hxne : u.x ≠ 0 := by
      intro h0
      rw [h0] at h2
      simp only [abs_zero] at h2
      exact absurd h2 (not_lt.mpr (abs_nonneg u.z))
    have hax : VecR.dot ⟨-u.y, u.x, 0⟩ u = 0 := by
      unfold VecR.dot
      dsimp only
      ring
    have hapos : VecR.normSq ⟨-u.y, u.x, 0⟩ ≠ 0 := by
      unfold VecR.normSq
      dsimp only
      intro h0
      have := mul_self_nonneg u.y
      have := mul_self_nonneg u.x
      have hx2 : u.x * u.x = 0 := by nlinarith
      exact hxne (by nlinarith [mul_self_nonneg u.x])
    exact antiparallel_step_dot_ge u v ⟨-u.y, u.x, 0⟩ hu hv h1 hax hapos
  · -- antiparallel, axis (0, -z, y)
    have hax : VecR.dot ⟨0, -u.z, u.y⟩ u = 0 := by
      unfold VecR.dot
      dsimp only
      ring
    have hapos : VecR.normSq ⟨0, -u.z, u.y⟩ ≠ 0 := by
      unfold VecR.normSq
      dsimp only
      intro h0
      have hz2 : u.z * u.z = 0 := by nlinarith [mul_self_nonneg u.y, mul_self_nonneg u.z]
      have hy2 : u.y * u.y = 0 := by nlinarith [mul_self_nonneg u.y, mul_self_nonneg u.z]
      have hzz : u.z = 0 := by nlinarith [mul_self_nonneg u.z]
      have hxz : |u.x| ≤ |u.z| := not_lt.mp h2
      rw [hzz] at hxz
      simp only [abs_zero] at hxz
      have hx0 : u.x = 0 := abs_eq_zero.mp (le_antisymm hxz (abs_nonneg u.x))
      have : u.normSq = 0 := by
        unfold VecR.normSq
        nlinarith [hx0, hy2, hz2]
      rw [hu] at this
      norm_num at this
    exact antiparallel_step_dot_ge u v ⟨0, -u.z, u.y⟩ hu hv h1 hax hapos
  · exact main_step_dot_ge u v hu hv h1

/-- One CCD bone step (rotate the effector about the bone by the damped
`setFromUnitVectors` delta) never increases the effector-to-target
distance. -/
theorem ccdStep_dist_le (b e t : VecR) :
    distR (rotateAbout b (ccdDelta b e t) e) t ≤ distR e t := by
  unfold distR rotateAbout
  apply Real.sqrt_le_sqrt
  have hRSq : (ccdDelta b e t).normSq = 1 := ccdDelta_normSq b e t
  have hrw : ((b.add ((ccdDelta b e t).rotate (e.sub b))).sub t)
      = ((ccdDelta b e t).rotate (e.sub b)).sub (t.sub b) := by
    unfold VecR.add VecR.sub
    ext <;> dsimp only <;> ring
  have hrw2 : e.sub t = (e.sub b).sub (t.sub b) := by
    unfold VecR.sub
    ext <;> dsimp only <;> ring
  rw [hrw, hrw2,
    VecR.normSq_sub ((ccdDelta b e t).rotate (e.sub b)) (t.sub b),
    VecR.normSq_sub (e.sub b) (t.sub b),
    QuatR.normSq_rotate_of_unit hRSq]
  have key : VecR.dot (e.sub b) (t.sub b)
      ≤ VecR.dot ((ccdDelta b e t).rotate (e.sub b)) (t.sub b) := by
    by_cases he : e.sub b = VecR.zero
    · rw [he, QuatR.rotate_zero]
    · by_cases ht : t.sub b = VecR.zero
      · rw [ht, VecR.dot_zero_right, VecR.dot_zero_right]
      · have hu1 : (VecR.vnormalize (e.sub b)).normSq = 1 :=
          VecR.vnormalize_normSq he
        have hv1 : (VecR.vnormalize (t.sub b)).normSq = 1 :=
          VecR.vnormalize_normSq ht
        have hue : VecR.smul (e.sub b).norm (VecR.vnormalize (e.sub b))
            = e.sub b := VecR.smul_norm_vnormalize he
        have hvt : VecR.smul (t.sub b).norm (VecR.vnormalize (t.sub b))
            = t.sub b := VecR.smul_norm_vnormalize ht
        have hmono := dampedDelta_dot_ge (VecR.vnormalize (e.sub b))
          (VecR.vnormalize (t.sub b)) hu1 hv1
        have hccd : ccdDelta b e t = dampIfLarge
            (setFromUnitVectors (VecR.vnormalize (e.sub b))
              (VecR.vnormalize (t.sub b))) := rfl
        rw [← hue, ← hvt, hccd, QuatR.rotate_smul, VecR.dot_smul_left,
          VecR.dot_smul_right, VecR.dot_smul_left, VecR.dot_smul_right]
        exact mul_le_mul_of_nonneg_left
          (mul_le_mul_of_nonneg_left hmono (VecR.norm_nonneg (t.sub b)))
          (VecR.norm_nonneg (e.sub b))
  linarith

/-- One full iteration of the CCD loop (middle bone, then root bone) never
increases the effector-to-target distance. -/
theorem ikIteration_dist_le (rootPos targetPos : VecR) (s : IKState) :
    distR (ikIteration rootPos targetPos s).effector targetPos
      ≤ distR s.effector targetPos := by
  unfold ikIteration
  dsimp only
  exact le_trans (ccdStep_dist_le rootPos _ targetPos)
    (ccdStep_dist_le s.middle s.effector targetPos)

/-- Characterization of the CCD loop with its early tolerance exit: the
result is the `k`-fold iterate for some `k` at most the fuel, every state
before the stop was at least the tolerance away, and if the loop stopped
early the final state is within tolerance. -/
theorem ikLoop_iterate_characterization (rootPos targetPos : VecR)
    (n : ℕ) (s : IKState) :
    ∃ k ≤ n, ikLoop rootPos targetPos n s
        = (ikIteration rootPos targetPos)^[k] s
      ∧ (∀ j, j < k → ikTolerance ≤
          distR ((ikIteration rootPos targetPos)^[j] s).effector targetPos)
      ∧ (k < n → distR ((ikIteration rootPos
          targetPos)^[k] s).effector targetPos < ikTolerance) := by
  induction n generalizing s with
  | zero =>
    exact ⟨0, le_refl 0, rfl, fun j hj => absurd hj (Nat.not_lt_zero j),
      fun h => absurd h (lt_irrefl 0)⟩
  | succ n ih =>
    by_cases h : distR s.effector targetPos < ikTolerance
    · refine ⟨0, Nat.zero_le _, ?_, fun j hj => absurd hj (Nat.not_lt_zero j),
        fun _ => ?_⟩
      · rw [ikLoop, if_pos h]
        rfl
      · simpa using h
    · obtain ⟨k, hk, heq, hprev, hstop⟩ := ih (ikIteration rootPos targetPos s)
      refine ⟨k + 1, Nat.succ_le_succ hk, ?_, ?_, ?_⟩
      · rw [ikLoop, if_neg h, heq, Function.iterate_succ_apply]
      · intro j hj
        cases j with
        | zero =>
          simpa using not_lt.mp h
        | succ j =>
          rw [Function.iterate_succ_apply]
          exact hprev j (Nat.lt_of_succ_lt_succ hj)
      · intro hlt
        rw [Function.iterate_succ_apply]
        exact hstop (Nat.lt_of_succ_lt_succ hlt)

/-- C6: each iteration of the two-bone CCD solver leaves the
effector-to-target distance non-increasing, and `solveTwoBoneIK` performs at
most `maxIterations = 15` iterations, stopping early exactly when the
effector comes within the `tolerance = 0.0001` of the target: the result is
the `k`-fold iterate of the per-iteration step for some `k ≤ 15`, every
iterate before the stop was at least the tolerance away from the target,
and whenever the loop stopped before exhausting the bound the returned
effector is within tolerance. -/
theorem ik_monotone_bounded_earlyStop :
    (∀ rootPos targetPos : VecR, ∀ s : IKState,
        distR (ikIteration rootPos targetPos s).effector targetPos
          ≤ distR s.effector targetPos)
    ∧ (∀ rootPos middlePos effectorPos targetPos : VecR,
        ∃ k ≤ ikMaxIter,
          solveTwoBoneIK rootPos middlePos effectorPos targetPos
            = (ikIteration rootPos targetPos)^[k] ⟨middlePos, effectorPos⟩
          ∧ (∀ j, j < k → ikTolerance ≤
              distR ((ikIteration rootPos targetPos)^[j]
                (⟨middlePos, effectorPos⟩ : IKState)).effector targetPos)
          ∧ (k < ikMaxIter →
              distR (solveTwoBoneIK rootPos middlePos effectorPos
                targetPos).effector targetPos < ikTolerance)) := by
  constructor
  · exact ikIteration_dist_le
  · intro rootPos middlePos effectorPos targetPos
    obtain ⟨k, hk, heq, hprev, hstop⟩ := ikLoop_iterate_characterization
      rootPos targetPos ikMaxIter ⟨middlePos, effectorPos⟩
    refine ⟨k, hk, heq, hprev, fun hlt => ?_⟩
    show distR (ikLoop rootPos targetPos ikMaxIter
      ⟨middlePos, effectorPos⟩).effector targetPos < ikTolerance
    rw [heq]
    exact hstop hlt

/-- Witness: the C6 statement applied at a concrete chain. -/
theorem ik_monotone_bounded_earlyStop_w :
    distR (ikIteration VecR.zero VecR.zero
        ⟨VecR.zero, VecR.zero⟩).effector VecR.zero
      ≤ distR VecR.zero VecR.zero :=
  ik_monotone_bounded_earlyStop.1 VecR.zero VecR.zero ⟨VecR.zero, VecR.zero⟩

end ModelRigger
